import Mathlib

/-!
A verification development for the `tuning` automation engine.

The Rust sources are embedded shallowly:

* `src/lib/jobs/mod.rs` — the status algebra (`Status`, `is_done`,
  `is_result_settled`, `is_result_done`), the job envelope and the
  configuration entry point `Main::try_from`;
* `src/lib/jobs/file.rs` — the file job (`execute_absent`,
  `execute_directory`, `execute_link`, `execute_touch`) over an explicit
  filesystem model;
* `src/lib/jobs/command.rs` — the command job's `creates`/`removes` guards
  and process-spawn skeleton;
* `src/lib/runner.rs` — the two-worker scheduler, modelled as a small-step
  transition system in which the whole lock-protected critical section of a
  worker iteration is one atomic step (the mutex makes it atomic in the
  source), and the `execute()` call between the two critical sections is a
  separate step;
* `src/main.rs` — the process entry point and its exit status.

Filesystem model conventions (the OS surface used by `file.rs`): a
filesystem is a finite association list from component-list paths to nodes
(regular file, directory, symlink).  Lookups are exact-path (ancestors are
not themselves resolved through symlinks); `exists`/`is_dir` resolve a
chain of symlinks at the final component with fuel, so loops behave as
nonexistent, matching the `ELOOP -> false` behaviour of `Path::exists`.
`remove_dir_all` removes the entry and everything under it; `fs::write`
is modelled as failing on a path whose entry is a directory or a symlink
(the std function would follow the symlink; no execution path proved about
below reaches that case), and `symlink` fails iff the destination entry
exists.

`runner.rs` constructs `Status::Skipped` and calls the `when()` method of
its jobs, but the `Status` enum and the `Execute` trait in
`src/lib/jobs/mod.rs` lack that variant and that method; those pieces of
this repository are therefore modelled from the spec where marked below.
-/

namespace Tuning

/-- The status lifecycle, from `Status` in `src/lib/jobs/mod.rs`.  The
`skipped` variant is modelled from the spec: `runner.rs` stores
`Status::Skipped` for jobs whose `when` guard is false, but the enum in
`src/lib/jobs/mod.rs` does not declare the variant. -/
inductive Status where
  | blocked : Status
  | changed (fromState toState : String) : Status
  | done : Status
  | inProgress : Status
  | noChange (detail : String) : Status
  | pending : Status
  | skipped : Status
deriving DecidableEq, Repr

/-- `Status::is_done` from `src/lib/jobs/mod.rs`: true exactly for
`Changed`, `Done`, `NoChange`.  The `skipped` arm is modelled from the
spec (`is_done(s) ≡ s ∈ {Done, Changed, NoChange}`), the enum in the
source lacking the variant. -/
def Status.is_done : Status → Bool
  | .changed _ _ => true
  | .done => true
  | .noChange _ => true
  | .blocked => false
  | .inProgress => false
  | .pending => false
  | .skipped => false

/-- `Error` from `src/lib/jobs/command.rs`. -/
inductive CError where
  | commandBegin (cmd : String) : CError
  | commandWait (cmd : String) : CError
  | nonZeroExitStatus (cmd : String) : CError
deriving DecidableEq, Repr

/-- The `state` field of a file job, from `FileState` in
`src/lib/jobs/file.rs`. -/
inductive FileState where
  | absent | directory | file | hard | link | touch
deriving DecidableEq, Repr

/-- A path as its list of components (the model of `std::path::PathBuf`). -/
abbrev FPath := List String

/-- `Error` from `src/lib/jobs/file.rs` (the `io::Error` payloads carried
by the source variants are dropped; they do not influence control flow). -/
inductive FError where
  | createLink (path src : FPath) : FError
  | createPath (path : FPath) : FError
  | pathExists (path : FPath) : FError
  | readPath (path : FPath) : FError
  | removePath (path : FPath) : FError
  | srcNotFound (src : FPath) : FError
  | stateRequiresSrc (state : FileState) : FError
  | stateNotImplemented (state : FileState) : FError
  | tempPath : FError
  | writePath (path : FPath) : FError
deriving DecidableEq, Repr

/-- `Error` from `src/lib/jobs/mod.rs`. -/
inductive JError where
  | commandJob (source : CError) : JError
  | fileJob (source : FError) : JError
  | parseToml : JError
  | somethingBad : JError
deriving DecidableEq, Repr

/-- `jobs::Result = Result<Status, Error>` from `src/lib/jobs/mod.rs`. -/
abbrev JResult := Except JError Status

instance exceptDecEq {e a : Type} [DecidableEq e] [DecidableEq a] :
    DecidableEq (Except e a) := fun x y =>
  match x, y with
  | .ok v, .ok w =>
    if h : v = w then isTrue (by rw [h])
    else isFalse (by intro hc; cases hc; exact h rfl)
  | .ok _, .error _ => isFalse (by intro hc; cases hc)
  | .error _, .ok _ => isFalse (by intro hc; cases hc)
  | .error u, .error w =>
    if h : u = w then isTrue (by rw [h])
    else isFalse (by intro hc; cases hc; exact h rfl)

/-- `is_result_settled` from `src/lib/jobs/mod.rs`.  The `skipped` arm is
modelled from the spec (`is_settled(s) ≡ is_done(s) ∨ s = Blocked ∨
s = Skipped ∨ s is an error`): the source's match sends every status other
than `Blocked` to `is_done`, but the source enum lacks the `Skipped`
variant that `runner.rs` stores, and the spec classifies `Skipped` as
settled. -/
def is_result_settled : JResult → Bool
  | .ok s =>
    match s with
    | .blocked => true
    | .skipped => true
    | _ => s.is_done
  | .error _ => true

/-- `is_result_done` from `src/lib/jobs/mod.rs`. -/
def is_result_done : JResult → Bool
  | .ok s => s.is_done
  | .error _ => false

/-- C2. The status predicates satisfy their specified definitions:
`is_done` holds exactly for `Done`, `Changed(_, _)` and `NoChange(_)`;
`is_result_settled` holds exactly for the `is_done` statuses, `Blocked`,
`Skipped`, and error results; and an error result is always settled and
never done. -/
theorem status_predicates_spec :
    (∀ s : Status, s.is_done = true ↔
      (s = .done ∨ (∃ a b, s = .changed a b) ∨ (∃ d, s = .noChange d))) ∧
    (∀ r : JResult, is_result_settled r = true ↔
      ((∃ s, r = .ok s ∧ s.is_done = true) ∨ r = .ok .blocked ∨
        r = .ok .skipped ∨ (∃ e, r = .error e))) ∧
    (∀ e : JError, is_result_settled (.error e) = true ∧
      is_result_done (.error e) = false) := by
  refine ⟨?_, ?_, ?_⟩
  · intro s
    cases s <;> simp [Status.is_done]
  · intro r
    match r with
    | .error e => simp [is_result_settled]
    | .ok s => cases s <;> simp [is_result_settled, Status.is_done]
  · intro e
    exact ⟨rfl, rfl⟩

/-! ## Filesystem model

The OS surface used by `src/lib/jobs/file.rs` and the `creates`/`removes`
guards of `src/lib/jobs/command.rs`, under the conventions stated at the
top of the file. -/

/-- A filesystem node: regular file, directory, or symbolic link. -/
inductive Node where
  | file : Node
  | dir : Node
  | symlink (target : FPath) : Node
deriving DecidableEq, Repr

/-- A filesystem: a finite association from paths to nodes. -/
abbrev Fs := List (FPath × Node)

/-- Exact-path lookup (the model of `std::fs::symlink_metadata`). -/
def lookupFs : Fs → FPath → Option Node
  | [], _ => none
  | (q, n) :: rest, p => if q = p then some n else lookupFs rest p

/-- Resolve a chain of symlinks at the final component, with fuel. -/
def resolveNode : Nat → Fs → FPath → Option Node
  | 0, _, _ => none
  | fuel + 1, fs, p =>
    match lookupFs fs p with
    | some (.symlink t) => resolveNode fuel fs t
    | some n => some n
    | none => none

/-- `Path::exists` (follows symlinks; a loop or a dangling link does not
exist). -/
def pathExistsFs (fs : Fs) (p : FPath) : Bool :=
  (resolveNode (fs.length + 1) fs p).isSome

/-- `Path::is_dir` (follows symlinks). -/
def isDirFs (fs : Fs) (p : FPath) : Bool :=
  resolveNode (fs.length + 1) fs p = some .dir

/-- `std::fs::remove_file`: drop the entry at the exact path (removes a
symlink itself, not its target). -/
def removeFileFs : Fs → FPath → Fs
  | [], _ => []
  | e :: rest, p =>
    if e.1 = p then removeFileFs rest p else e :: removeFileFs rest p

/-- Component-wise path prefix (`p` is an ancestor of, or equal to, `q`). -/
def isPrefixPath : FPath → FPath → Bool
  | [], _ => true
  | _, [] => false
  | a :: as, b :: bs => a = b && isPrefixPath as bs

/-- `std::fs::remove_dir_all`: drop the entry and everything under it. -/
def removeDirAllFs : Fs → FPath → Fs
  | [], _ => []
  | e :: rest, p =>
    if isPrefixPath p e.1 then removeDirAllFs rest p
    else e :: removeDirAllFs rest p

/-- The nonempty prefixes of a path, shortest first; `[a, b]` yields
`[[a], [a, b]]`. -/
def nonNilPrefixes : FPath → List FPath
  | [] => []
  | c :: rest => [c] :: (nonNilPrefixes rest).map (fun q => c :: q)

/-- Create each directory of a prefix list in turn; `none` models the
`io::Error` of `create_dir_all` when a non-directory entry is in the
way. -/
def createDirsFs (fs : Fs) : List FPath → Option Fs
  | [] => some fs
  | q :: rest =>
    match lookupFs fs q with
    | some .dir => createDirsFs fs rest
    | some _ => none
    | none => createDirsFs ((q, .dir) :: fs) rest

/-- `std::fs::create_dir_all` (creating `""`, the empty path, succeeds and
does nothing, as in std). -/
def createDirAllFs (fs : Fs) (p : FPath) : Option Fs :=
  createDirsFs fs (nonNilPrefixes p)

/-- `std::fs::write` with empty contents: creates a regular file, or
overwrites one; a directory or symlink entry at the path makes it fail
(the std function would write through the symlink; no execution path
proved about in this file reaches that case). -/
def writeFs (fs : Fs) (p : FPath) : Option Fs :=
  match lookupFs fs p with
  | none => some ((p, .file) :: fs)
  | some .file => some fs
  | some _ => none

/-- `std::fs::read_link`: the target of a symlink entry, without
following. -/
def readLinkFs (fs : Fs) (p : FPath) : Option FPath :=
  match lookupFs fs p with
  | some (.symlink t) => some t
  | _ => none

/-- `std::os::unix::fs::symlink`: fails iff the destination entry already
exists (EEXIST); the parent-directory requirement of the OS call is not
modelled. -/
def symlinkFs (fs : Fs) (src dest : FPath) : Option Fs :=
  match lookupFs fs dest with
  | some _ => none
  | none => some ((dest, .symlink src) :: fs)

/-- `Path::parent`: `None` for the empty path, otherwise the path without
its last component (the parent of a single component is the empty
path, as for `Path::new("foo").parent() == Some("")`). -/
def parentPath (p : FPath) : Option FPath :=
  match p with
  | [] => none
  | _ => some p.dropLast

/-- The model of `Path::display`. -/
def dispPath (p : FPath) : String := String.intercalate "/" p

/-- The model of the `{:?}` (Debug) rendering of a `PathBuf`. -/
def dbgPath (p : FPath) : String := "\"" ++ dispPath p ++ "\""

/-! ## File job (`src/lib/jobs/file.rs`)

Each operation returns the `file::Result` together with the filesystem
after the operation (the source mutates the real filesystem in place). -/

/-- `file::Result = Result<Status, file::Error>`. -/
abbrev FResult := Except FError Status

/-- `execute_absent` from `src/lib/jobs/file.rs`. -/
def execute_absent (p : FPath) (fs : Fs) : FResult × Fs :=
  if pathExistsFs fs p = false then (.ok (.noChange (dispPath p)), fs)
  else if isDirFs fs p then
    (.ok (.changed (dispPath p) "absent"), removeDirAllFs fs p)
  else
    (.ok (.changed (dispPath p) "absent"), removeFileFs fs p)

/-- The tail of `execute_directory`: `fs_create_dir_all` then the
`Changed(previously, "directory: path")` report. -/
def finishDir (p : FPath) (previously : String) (fs : Fs) : FResult × Fs :=
  match createDirAllFs fs p with
  | some fs1 => (.ok (.changed previously ("directory: " ++ dispPath p)), fs1)
  | none => (.error (.createPath p), fs)

/-- `execute_directory` from `src/lib/jobs/file.rs`. -/
def execute_directory (p : FPath) (force : Bool) (fs : Fs) : FResult × Fs :=
  if isDirFs fs p then (.ok (.noChange ("directory: " ++ dispPath p)), fs)
  else if pathExistsFs fs p then
    if force = false then (.error (.pathExists p), fs)
    else
      match execute_absent p fs with
      | (.error e, fs1) => (.error e, fs1)
      | (.ok _, fs1) => finishDir p "not directory" fs1
  else finishDir p "absent" fs

/-- The tail of `execute_link`: the `symbolic_link` call and the
`Changed(previously, "src -> path")` report. -/
def linkStep5 (src dest : FPath) (previously : String) (fs : Fs) :
    FResult × Fs :=
  match symlinkFs fs src dest with
  | some fs1 =>
    (.ok (.changed previously (dispPath src ++ " -> " ++ dispPath dest)), fs1)
  | none => (.error (.createLink dest src), fs)

/-- The second half of `execute_link`: the `symlink_metadata(dest)` match
(force-removal of a non-symlink occupant, or creation of the parent
directory when the destination is absent), then `linkStep5`. -/
def linkStep4 (src dest : FPath) (force : Bool) (previously : String)
    (fs : Fs) : FResult × Fs :=
  match lookupFs fs dest with
  | some nd =>
    let previously2 :=
      match nd with
      | .symlink _ => previously
      | _ => "existing: " ++ dispPath dest
    if force then
      match execute_absent dest fs with
      | (.error e, fs1) => (.error e, fs1)
      | (.ok _, fs1) => linkStep5 src dest previously2 fs1
    else (.error (.pathExists dest), fs)
  | none =>
    match parentPath dest with
    | some par =>
      match execute_directory par force fs with
      | (.error e, fs1) => (.error e, fs1)
      | (.ok _, fs1) => linkStep5 src dest previously fs1
    | none => linkStep5 src dest previously fs

/-- `execute_link` from `src/lib/jobs/file.rs`. -/
def execute_link (src dest : FPath) (force : Bool) (fs : Fs) :
    FResult × Fs :=
  if (lookupFs fs src).isNone && !force then (.error (.srcNotFound src), fs)
  else
    match readLinkFs fs dest with
    | some target =>
      let previously := dispPath target ++ " -> " ++ dispPath dest
      if src = target then (.ok (.noChange previously), fs)
      else if force = false then (.error (.pathExists dest), fs)
      else linkStep4 src dest force previously fs
    | none => linkStep4 src dest force "absent" fs

/-- The tail of `execute_touch`: `fs_write(p, "")` then the
`Changed("absent", path)` report. -/
def finishTouch (p : FPath) (fs : Fs) : FResult × Fs :=
  match writeFs fs p with
  | some fs1 => (.ok (.changed "absent" (dispPath p)), fs1)
  | none => (.error (.writePath p), fs)

/-- `execute_touch` from `src/lib/jobs/file.rs`. -/
def execute_touch (p : FPath) (fs : Fs) : FResult × Fs :=
  if pathExistsFs fs p then (.ok (.noChange (dispPath p)), fs)
  else
    match parentPath p with
    | some par =>
      match execute_directory par false fs with
      | (.error e, fs1) => (.error e, fs1)
      | (.ok _, fs1) => finishTouch p fs1
    | none => finishTouch p fs

/-- The `File` job spec from `src/lib/jobs/file.rs`. -/
structure File where
  force : Option Bool
  path : FPath
  src : Option FPath
  state : FileState
deriving DecidableEq, Repr

/-- `File::execute` from `src/lib/jobs/file.rs`. -/
def File.execute (f : File) (fs : Fs) : FResult × Fs :=
  match f.state with
  | .absent => execute_absent f.path fs
  | .directory => execute_directory f.path (f.force.getD false) fs
  | .link =>
    match f.src with
    | some s => execute_link s f.path (f.force.getD false) fs
    | none => (.error (.stateRequiresSrc f.state), fs)
  | .touch => execute_touch f.path fs
  | _ => (.error (.stateNotImplemented f.state), fs)

/-- The declared filesystem state of a file job, used to state the
idempotence claim: `absent` means the path does not exist; `directory`
that it is a directory; `link` that the entry at `path` is a symlink to
`src`; `touch` that the path exists. -/
def inDeclaredState (f : File) (fs : Fs) : Bool :=
  match f.state with
  | .absent => pathExistsFs fs f.path = false
  | .directory => isDirFs fs f.path
  | .link =>
    match f.src with
    | some s => lookupFs fs f.path = some (.symlink s)
    | none => false
  | .touch => pathExistsFs fs f.path
  | _ => false

/-! ### Filesystem lemmas -/

theorem lookupFs_cons_self (fs : Fs) (p : FPath) (n : Node) :
    lookupFs ((p, n) :: fs) p = some n := by
  simp [lookupFs]

theorem lookupFs_cons_ne (fs : Fs) (p q : FPath) (n : Node) (h : ¬ q = p) :
    lookupFs ((q, n) :: fs) p = lookupFs fs p := by
  simp [lookupFs, h]

theorem pathExistsFs_of_lookup_file {fs : Fs} {p : FPath}
    (h : lookupFs fs p = some .file) : pathExistsFs fs p = true := by
  simp [pathExistsFs, resolveNode, h]

theorem isDirFs_of_lookup_dir {fs : Fs} {p : FPath}
    (h : lookupFs fs p = some .dir) : isDirFs fs p = true := by
  simp [isDirFs, resolveNode, h]

theorem pathExistsFs_of_lookup_none {fs : Fs} {p : FPath}
    (h : lookupFs fs p = none) : pathExistsFs fs p = false := by
  simp [pathExistsFs, resolveNode, h]

theorem lookupFs_removeFileFs_self (fs : Fs) (p : FPath) :
    lookupFs (removeFileFs fs p) p = none := by
  induction fs with
  | nil => rfl
  | cons e rest ih =>
    unfold removeFileFs
    by_cases h : e.1 = p
    · simp only [h, if_true]; exact ih
    · simp only [h, if_false]
      cases e with
      | mk q n => rw [lookupFs_cons_ne _ _ _ _ h]; exact ih

theorem isPrefixPath_refl (p : FPath) : isPrefixPath p p = true := by
  induction p with
  | nil => rfl
  | cons c rest ih => simp [isPrefixPath, ih]

theorem lookupFs_removeDirAllFs_self (fs : Fs) (p : FPath) :
    lookupFs (removeDirAllFs fs p) p = none := by
  induction fs with
  | nil => rfl
  | cons e rest ih =>
    unfold removeDirAllFs
    by_cases h : isPrefixPath p e.1 = true
    · simp only [h, if_true]; exact ih
    · simp only [h, Bool.false_eq_true, if_false]
      cases e with
      | mk q n =>
        have hq : ¬ q = p := by
          intro he
          exact h (by simpa [he] using isPrefixPath_refl p)
        rw [lookupFs_cons_ne _ _ _ _ hq]; exact ih

theorem mem_nonNilPrefixes_self {p : FPath} (h : p ≠ []) :
    p ∈ nonNilPrefixes p := by
  induction p with
  | nil => exact absurd rfl h
  | cons c rest ih =>
    unfold nonNilPrefixes
    by_cases hr : rest = []
    · subst hr; simp
    · exact List.mem_cons_of_mem _ (List.mem_map_of_mem _ (ih hr))

theorem createDirsFs_preserves_dir {l : List FPath} {fs fs1 : Fs} {q : FPath}
    (h : createDirsFs fs l = some fs1) (hq : lookupFs fs q = some .dir) :
    lookupFs fs1 q = some .dir := by
  induction l generalizing fs with
  | nil => simp [createDirsFs] at h; rw [← h]; exact hq
  | cons r rest ih =>
    unfold createDirsFs at h
    match hl : lookupFs fs r with
    | some .dir => rw [hl] at h; exact ih h hq
    | some .file => rw [hl] at h; exact absurd h (by simp)
    | some (.symlink t) => rw [hl] at h; exact absurd h (by simp)
    | none =>
      rw [hl] at h
      refine ih h ?_
      by_cases hrq : r = q
      · subst hrq; rw [hl] at hq; exact absurd hq (by simp)
      · rw [lookupFs_cons_ne _ _ _ _ hrq]; exact hq

theorem createDirsFs_lookup_mem {l : List FPath} {fs fs1 : Fs} {q : FPath}
    (h : createDirsFs fs l = some fs1) (hq : q ∈ l) :
    lookupFs fs1 q = some .dir := by
  induction l generalizing fs with
  | nil => simp at hq
  | cons r rest ih =>
    unfold createDirsFs at h
    rcases List.mem_cons.mp hq with hq | hq
    · subst hq
      match hl : lookupFs fs q with
      | some .dir => rw [hl] at h; exact createDirsFs_preserves_dir h hl
      | some .file => rw [hl] at h; exact absurd h (by simp)
      | some (.symlink t) => rw [hl] at h; exact absurd h (by simp)
      | none =>
        rw [hl] at h
        exact createDirsFs_preserves_dir h (lookupFs_cons_self _ _ _)
    · match hl : lookupFs fs r with
      | some .dir => rw [hl] at h; exact ih h hq
      | some .file => rw [hl] at h; exact absurd h (by simp)
      | some (.symlink t) => rw [hl] at h; exact absurd h (by simp)
      | none => rw [hl] at h; exact ih h hq

theorem createDirsFs_preserves_isSome {l : List FPath} {fs fs1 : Fs}
    {q : FPath} (h : createDirsFs fs l = some fs1)
    (hq : (lookupFs fs q).isSome = true) : (lookupFs fs1 q).isSome = true := by
  induction l generalizing fs with
  | nil => simp [createDirsFs] at h; rw [← h]; exact hq
  | cons r rest ih =>
    unfold createDirsFs at h
    match hl : lookupFs fs r with
    | some .dir => rw [hl] at h; exact ih h hq
    | some .file => rw [hl] at h; exact absurd h (by simp)
    | some (.symlink t) => rw [hl] at h; exact absurd h (by simp)
    | none =>
      rw [hl] at h
      refine ih h ?_
      by_cases hrq : r = q
      · subst hrq; rw [lookupFs_cons_self]; rfl
      · rw [lookupFs_cons_ne _ _ _ _ hrq]; exact hq

theorem createDirAllFs_lookup_self {fs fs1 : Fs} {p : FPath}
    (h : createDirAllFs fs p = some fs1) (hp : p ≠ []) :
    lookupFs fs1 p = some .dir :=
  createDirsFs_lookup_mem h (mem_nonNilPrefixes_self hp)

/-! ### Idempotence of the file operations -/

theorem execute_absent_changed {p : FPath} {fs fs1 : Fs} {a b : String}
    (h : execute_absent p fs = (.ok (.changed a b), fs1)) :
    lookupFs fs1 p = none := by
  unfold execute_absent at h
  split at h
  · exact absurd h (by simp)
  · split at h
    · simp only [Prod.mk.injEq] at h
      rw [← h.2]
      exact lookupFs_removeDirAllFs_self fs p
    · simp only [Prod.mk.injEq] at h
      rw [← h.2]
      exact lookupFs_removeFileFs_self fs p

theorem execute_absent_second {p : FPath} {fs1 : Fs}
    (h : lookupFs fs1 p = none) :
    execute_absent p fs1 = (.ok (.noChange (dispPath p)), fs1) := by
  unfold execute_absent
  rw [pathExistsFs_of_lookup_none h]
  simp

theorem finishDir_changed {p : FPath} {prev : String} {fs fs1 : Fs}
    {a b : String} (h : finishDir p prev fs = (.ok (.changed a b), fs1))
    (hp : p ≠ []) : lookupFs fs1 p = some .dir := by
  unfold finishDir at h
  split at h
  · simp only [Prod.mk.injEq] at h
    rw [← h.2]
    exact createDirAllFs_lookup_self (by assumption) hp
  · exact absurd h (by simp)

theorem execute_directory_changed {p : FPath} {force : Bool} {fs fs1 : Fs}
    {a b : String}
    (h : execute_directory p force fs = (.ok (.changed a b), fs1))
    (hp : p ≠ []) : lookupFs fs1 p = some .dir := by
  unfold execute_directory at h
  split at h
  · exact absurd h (by simp)
  · split at h
    · split at h
      · exact absurd h (by simp)
      · split at h
        · exact absurd h (by simp)
        · exact finishDir_changed h hp
    · exact finishDir_changed h hp

theorem execute_directory_second {p : FPath} (force : Bool) {fs1 : Fs}
    (h : lookupFs fs1 p = some .dir) :
    execute_directory p force fs1 =
      (.ok (.noChange ("directory: " ++ dispPath p)), fs1) := by
  unfold execute_directory
  rw [isDirFs_of_lookup_dir h]
  simp

theorem finishTouch_changed {p : FPath} {fs fs1 : Fs} {a b : String}
    (h : finishTouch p fs = (.ok (.changed a b), fs1)) :
    lookupFs fs1 p = some .file := by
  unfold finishTouch at h
  split at h
  · rename_i fsw hw
    simp only [Prod.mk.injEq] at h
    rw [← h.2]
    unfold writeFs at hw
    split at hw
    · rename_i hnone
      cases hw
      exact lookupFs_cons_self _ _ _
    · rename_i hfile
      cases hw
      exact hfile
    · exact absurd hw (by simp)
  · exact absurd h (by simp)

theorem execute_touch_changed {p : FPath} {fs fs1 : Fs} {a b : String}
    (h : execute_touch p fs = (.ok (.changed a b), fs1)) :
    lookupFs fs1 p = some .file := by
  unfold execute_touch at h
  split at h
  · exact absurd h (by simp)
  · split at h
    · split at h
      · exact absurd h (by simp)
      · exact finishTouch_changed h
    · exact finishTouch_changed h

theorem execute_touch_second {p : FPath} {fs1 : Fs}
    (h : lookupFs fs1 p = some .file) :
    execute_touch p fs1 = (.ok (.noChange (dispPath p)), fs1) := by
  unfold execute_touch
  rw [pathExistsFs_of_lookup_file h]
  simp

theorem execute_directory_false_ok_isSome {par : FPath} {fs fs1 : Fs}
    {st : Status} {q : FPath}
    (h : execute_directory par false fs = (.ok st, fs1))
    (hq : (lookupFs fs q).isSome = true) : (lookupFs fs1 q).isSome = true := by
  unfold execute_directory at h
  split at h
  · simp only [Prod.mk.injEq] at h
    rw [← h.2]; exact hq
  · split at h
    · simp at h
    · unfold finishDir at h
      split at h
      · rename_i fsd hd
        simp only [Prod.mk.injEq] at h
        rw [← h.2]
        unfold createDirAllFs at hd
        exact createDirsFs_preserves_isSome hd hq
      · simp at h

theorem linkStep5_changed {src dest : FPath} {prev : String} {fs fsf : Fs}
    {a b : String}
    (h : linkStep5 src dest prev fs = (.ok (.changed a b), fsf)) :
    lookupFs fs dest = none ∧ fsf = (dest, .symlink src) :: fs := by
  unfold linkStep5 at h
  split at h
  · rename_i fs1 hs
    unfold symlinkFs at hs
    split at hs
    · exact absurd hs (by simp)
    · rename_i hnone
      cases hs
      simp only [Prod.mk.injEq] at h
      exact ⟨hnone, h.2.symm⟩
  · exact absurd h (by simp)

theorem linkForce_changed {src dest : FPath} {prev2 : String} {fs fsf : Fs}
    {a b : String}
    (h : (match execute_absent dest fs with
          | (Except.error e, fs1) => (Except.error e, fs1)
          | (Except.ok _, fs1) => linkStep5 src dest prev2 fs1)
        = (.ok (.changed a b), fsf)) :
    ∃ fs1, lookupFs fs1 dest = none ∧ fsf = (dest, .symlink src) :: fs1 := by
  split at h
  · simp at h
  · rename_i fs1 hab
    obtain ⟨hn, he⟩ := linkStep5_changed h
    exact ⟨fs1, hn, he⟩

set_option maxHeartbeats 1000000 in
theorem linkStep4_changed {src dest : FPath} {force : Bool} {prev : String}
    {fs fsf : Fs} {a b : String}
    (h : linkStep4 src dest force prev fs = (.ok (.changed a b), fsf)) :
    ∃ fs1, lookupFs fs1 dest = none ∧ fsf = (dest, .symlink src) :: fs1 ∧
      (force = false → (lookupFs fs src).isSome = true →
        (lookupFs fs1 src).isSome = true) := by
  unfold linkStep4 at h
  split at h
  · -- dest entry exists
    cases hforce : force with
    | true =>
      rw [hforce] at h
      simp only [if_true] at h
      obtain ⟨fs1, hn, he⟩ := linkForce_changed h
      exact ⟨fs1, hn, he, fun hf => absurd hf (by simp)⟩
    | false =>
      rw [hforce] at h
      simp at h
  · split at h
    · split at h
      · simp at h
      · rename_i fs1 hd
        obtain ⟨hn, he⟩ := linkStep5_changed h
        refine ⟨fs1, hn, he, fun hf hq => ?_⟩
        subst hf
        exact execute_directory_false_ok_isSome hd hq
    · obtain ⟨hn, he⟩ := linkStep5_changed h
      exact ⟨fs, hn, he, fun _ hq => hq⟩

theorem execute_link_changed {src dest : FPath} {force : Bool} {fs fsf : Fs}
    {a b : String}
    (h : execute_link src dest force fs = (.ok (.changed a b), fsf)) :
    ∃ fs1, lookupFs fs1 dest = none ∧ fsf = (dest, .symlink src) :: fs1 ∧
      (force = false → (lookupFs fs1 src).isSome = true) := by
  unfold execute_link at h
  split at h
  · simp at h
  · rename_i hguard
    have hsrc : force = false → (lookupFs fs src).isSome = true := by
      intro hf
      rw [hf] at hguard
      cases hl : lookupFs fs src with
      | none => exact absurd (by rw [hl]; rfl) hguard
      | some n => rfl
    split at h
    · split at h
      · simp at h
      · split at h
        · simp at h
        · rename_i hforce
          obtain ⟨fs1, hn, he, _⟩ := linkStep4_changed h
          exact ⟨fs1, hn, he, fun hf => absurd hf hforce⟩
    · obtain ⟨fs1, hn, he, himp⟩ := linkStep4_changed h
      exact ⟨fs1, hn, he, fun hf => himp hf (hsrc hf)⟩

theorem execute_link_second {src dest : FPath} {force : Bool} {fs1 : Fs}
    (hcond : force = false → (lookupFs fs1 src).isSome = true) :
    execute_link src dest force ((dest, .symlink src) :: fs1) =
      (.ok (.noChange (dispPath src ++ " -> " ++ dispPath dest)),
        (dest, .symlink src) :: fs1) := by
  have hguard :
      ((lookupFs ((dest, Node.symlink src) :: fs1) src).isNone && !force)
        = false := by
    cases force with
    | true => simp
    | false =>
      have hs := hcond rfl
      by_cases hds : dest = src
      · subst hds
        rw [lookupFs_cons_self]
        rfl
      · rw [lookupFs_cons_ne _ _ _ _ hds]
        cases hl : lookupFs fs1 src with
        | none => rw [hl] at hs; simp at hs
        | some n => rfl
  have hrl : readLinkFs ((dest, Node.symlink src) :: fs1) dest = some src := by
    unfold readLinkFs
    rw [lookupFs_cons_self]
  unfold execute_link
  rw [hguard, hrl]
  simp

/-- C7 counterexample: the claim asserts that executing a file job twice
yields `Changed` then `NoChange` for every file job with one of the four
implemented states.  A `touch` job on an already-existing path yields
`NoChange` on the *first* run, and a `directory` job whose path is empty
yields `Changed` and leaves the filesystem untouched, so its second run is
again `Changed`. -/
theorem file_idempotence_counterexample :
    File.execute { force := none, path := ["a"], src := none, state := .touch }
        [(["a"], Node.file)] =
      (.ok (.noChange "a"), [(["a"], Node.file)]) ∧
    File.execute
        { force := none, path := [], src := none, state := .directory } [] =
      (.ok (.changed "absent" "directory: "), []) := by
  exact ⟨rfl, rfl⟩

/-- C7 (amended).  For every file job with state in
{absent, directory, link, touch} and a nonempty path: if an execution
returns `Changed`, then the filesystem afterwards satisfies the declared
state, and a second execution returns `NoChange` and leaves the
filesystem unchanged. -/
theorem file_idempotence_amended (f : File) (fs fs1 : Fs) (a b : String)
    (hstate : f.state = .absent ∨ f.state = .directory ∨ f.state = .link ∨
      f.state = .touch)
    (hpath : f.path ≠ [])
    (h : File.execute f fs = (.ok (.changed a b), fs1)) :
    (∃ d, File.execute f fs1 = (.ok (.noChange d), fs1)) ∧
      inDeclaredState f fs1 = true := by
  obtain ⟨force, path, src, state⟩ := f
  simp only at hpath
  rcases hstate with hs | hs | hs | hs <;> simp only at hs <;> subst hs <;>
    simp only [File.execute, inDeclaredState] at h ⊢
  · have ha := execute_absent_changed h
    refine ⟨⟨dispPath path, execute_absent_second ha⟩, ?_⟩
    simp [pathExistsFs_of_lookup_none ha]
  · have hd := execute_directory_changed h hpath
    exact ⟨⟨"directory: " ++ dispPath path, execute_directory_second _ hd⟩,
      by simp [isDirFs_of_lookup_dir hd]⟩
  · cases src with
    | none => exact absurd h (by simp)
    | some s =>
      obtain ⟨fs2, hn, he, himp⟩ := execute_link_changed h
      subst he
      exact ⟨⟨dispPath s ++ " -> " ++ dispPath path,
          execute_link_second himp⟩,
        by simp [lookupFs_cons_self]⟩
  · have ht := execute_touch_changed h
    refine ⟨⟨dispPath path, execute_touch_second ht⟩, ?_⟩
    simp [pathExistsFs_of_lookup_file ht]

/-- Witness for `file_idempotence_amended`: a `touch` job on the path `a`
over the empty filesystem. -/
theorem file_idempotence_amended_witness :
    (∃ d, File.execute
        { force := none, path := ["a"], src := none, state := .touch }
        [(["a"], Node.file)] =
      (.ok (.noChange d), [(["a"], Node.file)])) ∧
    inDeclaredState
        { force := none, path := ["a"], src := none, state := .touch }
        [(["a"], Node.file)] = true :=
  file_idempotence_amended
    { force := none, path := ["a"], src := none, state := .touch }
    [] [(["a"], Node.file)] "absent" "a"
    (by right; right; right; rfl) (by decide) (by rfl)

/-- C10. A file job with `state = link` and no `src` fails with the
`state=link requires src` error for every value of `force`, and the
filesystem is returned unmodified. -/
theorem link_requires_src (force : Option Bool) (p : FPath) (fs : Fs) :
    File.execute { force := force, path := p, src := none, state := .link }
        fs =
      (.error (.stateRequiresSrc .link), fs) := rfl

/-! ## Command job (`src/lib/jobs/command.rs`) -/

/-- The `Command` job spec from `src/lib/jobs/command.rs`. -/
structure Command where
  name : Option String
  needs : Option (List String)
  argv : Option (List String)
  chdir : Option FPath
  command : String
  creates : Option FPath
  removes : Option FPath
deriving DecidableEq, Repr

/-- The outcome of the spawn/stream/wait section of `Command::execute`,
abstracting the child process: spawning may fail (`popen` error), waiting
may fail, or the child exits with a success flag. -/
inductive ChildOutcome where
  | beginFail : ChildOutcome
  | waitFail : ChildOutcome
  | exits (success : Bool) : ChildOutcome
deriving DecidableEq, Repr

/-- The spawn/stream/wait section of `Command::execute` (everything after
the two guards): an error carrying the command string on spawn or wait
failure or nonzero exit, `Done` on success. -/
def commandSpawn (c : Command) (child : ChildOutcome) : Except CError Status :=
  match child with
  | .beginFail => .error (.commandBegin c.command)
  | .waitFail => .error (.commandWait c.command)
  | .exits true => .ok .done
  | .exits false => .error (.nonZeroExitStatus c.command)

/-- The `removes` guard of `Command::execute`, followed by the spawn
section.  The returned flag records whether a child process was
spawned. -/
def commandAfterCreates (c : Command) (fs : Fs) (child : ChildOutcome) :
    Except CError Status × Bool :=
  match c.removes with
  | some p =>
    if pathExistsFs fs p = false then
      (.ok (.noChange (dbgPath p ++ " already removed")), false)
    else (commandSpawn c child, true)
  | none => (commandSpawn c child, true)

/-- `Command::execute` from `src/lib/jobs/command.rs`, over the filesystem
model and an abstract child-process outcome.  The returned flag records
whether a child process was spawned. -/
def Command.execute (c : Command) (fs : Fs) (child : ChildOutcome) :
    Except CError Status × Bool :=
  match c.creates with
  | some p =>
    if pathExistsFs fs p then
      (.ok (.noChange (dbgPath p ++ " already created")), false)
    else commandAfterCreates c fs child
  | none => commandAfterCreates c fs child

/-- C8 counterexample: the claim asserts that whenever `removes` is set to
a nonexistent path, `execute()` returns `NoChange("<path> already
removed")`; but the `creates` guard is checked first, so a command with
`creates` set to an existing path and `removes` set to an absent path
returns the `already created` message instead. -/
theorem command_removes_counterexample :
    Command.execute
        { name := none, needs := none, argv := none, chdir := none,
          command := "x", creates := some ["c"], removes := some ["r"] }
        [(["c"], Node.file)] (.exits true) =
      (.ok (.noChange ("\"c\" already created")), false) ∧
    "\"c\" already created" ≠ "\"r\" already removed" := by
  exact ⟨rfl, by decide⟩

/-- C8 (amended).  With `creates` set to an existing path, `execute()`
returns `NoChange("<path> already created")` and no child is spawned;
and with `removes` set to a nonexistent path, provided the `creates`
guard does not fire first (`creates` is unset or names a nonexistent
path), `execute()` returns `NoChange("<path> already removed")` and no
child is spawned. -/
theorem command_guards_amended (c : Command) (fs : Fs)
    (child : ChildOutcome) :
    (∀ p, c.creates = some p → pathExistsFs fs p = true →
      c.execute fs child =
        (.ok (.noChange (dbgPath p ++ " already created")), false)) ∧
    (∀ p, c.removes = some p → pathExistsFs fs p = false →
      (∀ q, c.creates = some q → pathExistsFs fs q = false) →
      c.execute fs child =
        (.ok (.noChange (dbgPath p ++ " already removed")), false)) := by
  constructor
  · intro p hc he
    unfold Command.execute
    rw [hc]
    simp [he]
  · intro p hr he hcq
    unfold Command.execute commandAfterCreates
    rw [hr]
    cases hc : c.creates with
    | none => simp [he]
    | some q => simp [hcq q hc, he]

/-- Witness for `command_guards_amended`: a command whose `creates` path
exists, over a one-entry filesystem. -/
theorem command_guards_amended_witness :
    Command.execute
        { name := none, needs := none, argv := none, chdir := none,
          command := "x", creates := some ["c"], removes := none }
        [(["c"], Node.file)] (.exits true) =
      (.ok (.noChange ("\"c\" already created")), false) :=
  (command_guards_amended
      { name := none, needs := none, argv := none, chdir := none,
        command := "x", creates := some ["c"], removes := none }
      [(["c"], Node.file)] (.exits true)).1 ["c"] rfl (by decide)

/-! ## Job envelope and configuration parsing (`src/lib/jobs/mod.rs`) -/

/-- `Metadata` from `src/lib/jobs/mod.rs`. -/
structure Metadata where
  name : Option String
  needs : Option (List String)
deriving DecidableEq, Repr

/-- `Spec` from `src/lib/jobs/mod.rs`. -/
inductive Spec where
  | command (c : Command) : Spec
  | file (f : File) : Spec
deriving DecidableEq, Repr

/-- `Job` from `src/lib/jobs/mod.rs`. -/
structure Job where
  metadata : Metadata
  spec : Spec
deriving DecidableEq, Repr

/-- `Main` from `src/lib/jobs/mod.rs`. -/
structure Main where
  jobs : List Job
deriving DecidableEq, Repr

/-- `Command::name` from `src/lib/jobs/command.rs` (the shell-style
summary; named `summaryName` here because the struct's `name` field takes
the projection name). -/
def Command.summaryName (c : Command) : String :=
  let parts :=
    (match c.creates with
      | some p => ["[ ! -e " ++ dispPath p ++ " ] &&"]
      | none => []) ++
    (match c.removes with
      | some p => ["[ -e " ++ dispPath p ++ " ] &&"]
      | none => []) ++
    (match c.chdir with
      | some p => ["cd " ++ dispPath p ++ " &&"]
      | none => []) ++
    [c.command] ++ c.argv.getD []
  String.intercalate " " parts

/-- `File::name` from `src/lib/jobs/file.rs` (the shell-style summary). -/
def File.name (f : File) : String :=
  let force := f.force.getD false
  let pd := dispPath f.path
  match f.state with
  | .absent => "rm -r" ++ (if force then "f" else "") ++ " " ++ pd
  | .directory => "mkdir -p " ++ pd
  | .link =>
    "ln -s" ++ (if force then "f" else "") ++ " " ++
      dispPath (f.src.getD []) ++ " " ++ pd
  | .touch => "touch " ++ pd
  | _ => reprStr f

/-- `Job::name` (the `Execute` impl in `src/lib/jobs/mod.rs`): the
declared name if present, else the summary derived from the spec. -/
def Job.name (j : Job) : String :=
  match j.spec with
  | .command c => j.metadata.name.getD c.summaryName
  | .file f => j.metadata.name.getD f.name

/-- `Job::needs` (the `Execute` impl in `src/lib/jobs/mod.rs`). -/
def Job.needs (j : Job) : List String :=
  j.metadata.needs.getD []

/-- A structured job table: the key/value surface of one `[[jobs]]` TOML
table after the external `toml` crate has parsed the text.  `Main::try_from`
is `toml::from_str`, so the model starts from this structured form; the
serde derives on `Job`/`Metadata`/`Spec`/`Command`/`File` determine how a
table maps to a `Job`. -/
structure JobTable where
  name : Option String
  needs : Option (List String)
  typeTag : Option String
  command : Option String
  argv : Option (List String)
  chdir : Option String
  creates : Option String
  removes : Option String
  path : Option String
  state : Option String
  src : Option String
  force : Option Bool
deriving DecidableEq, Repr

/-- A deserialization error (the model of `toml::de::Error` as carried by
`Error::ParseToml`). -/
inductive ParseErr where
  | badTag : ParseErr
  | missingField (f : String) : ParseErr
  | badState (s : String) : ParseErr
deriving DecidableEq, Repr

/-- `PathBuf::from` on a configuration string. -/
def strToPath (s : String) : FPath :=
  (s.splitOn "/").filter (fun c => ¬ c = "")

/-- The `state` enum deserialization (serde `rename_all = "lowercase"`). -/
def parseFileState (s : String) : Option FileState :=
  if s = "absent" then some .absent
  else if s = "directory" then some .directory
  else if s = "file" then some .file
  else if s = "hard" then some .hard
  else if s = "link" then some .link
  else if s = "touch" then some .touch
  else none

/-- Deserialization of one job table, following the serde derives: the
`type` tag selects the `Spec` variant, `command` is required for a command
job, `path` and `state` (with `state` in the enum) for a file job.  No
cross-table validation is performed. -/
def parseJobTable (t : JobTable) : Except ParseErr Job :=
  match t.typeTag with
  | some "command" =>
    match t.command with
    | some cmd =>
      .ok ⟨⟨t.name, t.needs⟩,
        .command ⟨none, none, t.argv, t.chdir.map strToPath, cmd,
          t.creates.map strToPath, t.removes.map strToPath⟩⟩
    | none => .error (.missingField "command")
  | some "file" =>
    match t.path, t.state with
    | some p, some st =>
      match parseFileState st with
      | some fst =>
        .ok ⟨⟨t.name, t.needs⟩,
          .file ⟨t.force, strToPath p, t.src.map strToPath, fst⟩⟩
      | none => .error (.badState st)
    | _, _ => .error (.missingField "path/state")
  | _ => .error .badTag

/-- Deserialize the job tables in order, stopping at the first error (the
behaviour of the serde sequence visitor). -/
def parseJobs : List JobTable → Except ParseErr (List Job)
  | [] => .ok []
  | t :: rest =>
    match parseJobTable t with
    | .error e => .error e
    | .ok j =>
      match parseJobs rest with
      | .error e => .error e
      | .ok js => .ok (j :: js)

/-- `Main::try_from` from `src/lib/jobs/mod.rs` (`toml::from_str`),
starting from the structured table list. -/
def Main.tryFrom (doc : List JobTable) : Except ParseErr Main :=
  (parseJobs doc).map (fun js => { jobs := js })

/-- A job list contains a dangling need: some job's `needs` names a job
that does not exist in the list. -/
def hasDanglingNeeds (m : Main) : Bool :=
  m.jobs.any (fun j =>
    j.needs.any (fun n => ¬ m.jobs.any (fun k => k.name = n)))

/-- C9 counterexample: the parser accepts a configuration whose single
job needs a job named `missing` that does not exist, so the claim that
dangling needs are rejected as a configuration error is false. -/
theorem parser_dangling_counterexample :
    (Main.tryFrom [⟨some "a", some ["missing"], some "command", some "x",
        none, none, none, none, none, none, none, none⟩]).map
      hasDanglingNeeds = .ok true := by decide

/-- The parser looks at each table in isolation and never at the `needs`
contents: whether deserialization succeeds is unchanged under replacing
every table's `needs` field. -/
theorem parseJobTable_needs_isOk (t : JobTable)
    (v : Option (List String)) :
    (parseJobTable { t with needs := v }).isOk = (parseJobTable t).isOk := by
  rcases t with ⟨n, nd, tt, cmd, argv, chdir, creates, removes, pth, st, src,
    force⟩
  unfold parseJobTable
  simp only
  split
  · split <;> rfl
  · split
    · split <;> rfl
    · rfl
  · rfl

/-- C9 (amended).  Deserialization success is independent of every
`needs` field: the parser performs only per-job structural validation, so
a parsed job list handed to the scheduler may contain dangling needs. -/
theorem parser_needs_independent (doc : List JobTable)
    (f : JobTable → Option (List String)) :
    (Main.tryFrom (doc.map (fun t => { t with needs := f t }))).isOk =
      (Main.tryFrom doc).isOk := by
  have key : ∀ l : List JobTable,
      (parseJobs (l.map (fun t => { t with needs := f t }))).isOk =
        (parseJobs l).isOk := by
    intro l
    induction l with
    | nil => rfl
    | cons t rest ih =>
      simp only [List.map_cons]
      unfold parseJobs
      have ht := parseJobTable_needs_isOk t (f t)
      cases hpt : parseJobTable t with
      | error e =>
        rw [hpt] at ht
        cases hpt2 : parseJobTable { t with needs := f t } with
        | error e2 => rfl
        | ok j2 => rw [hpt2] at ht; simp [Except.isOk, Except.toBool] at ht
      | ok j =>
        rw [hpt] at ht
        cases hpt2 : parseJobTable { t with needs := f t } with
        | error e2 => rw [hpt2] at ht; simp [Except.isOk, Except.toBool] at ht
        | ok j2 =>
          cases hr : parseJobs rest with
          | error e3 =>
            rw [hr] at ih
            cases hr2 : parseJobs
                (rest.map (fun t => { t with needs := f t })) with
            | error e4 => rfl
            | ok js => rw [hr2] at ih; simp [Except.isOk, Except.toBool] at ih
          | ok js =>
            rw [hr] at ih
            cases hr2 : parseJobs
                (rest.map (fun t => { t with needs := f t })) with
            | error e4 => rw [hr2] at ih; simp [Except.isOk, Except.toBool] at ih
            | ok js2 => rfl
  unfold Main.tryFrom
  cases h1 : parseJobs (doc.map (fun t => { t with needs := f t })) with
  | error e =>
    cases h2 : parseJobs doc with
    | error e2 => rfl
    | ok js =>
      have := key doc
      rw [h1, h2] at this
      simp [Except.isOk, Except.toBool] at this
  | ok js =>
    cases h2 : parseJobs doc with
    | error e2 =>
      have := key doc
      rw [h1, h2] at this
      simp [Except.isOk, Except.toBool] at this
    | ok js2 => rfl

/-! ## Scheduler (`src/lib/runner.rs`)

`run` is generic over `impl Execute`, so a job is modelled by its
capability surface: `name()`, `needs()`, `when()` and the result its
`execute()` produces.  `when()` is part of that surface because
`runner.rs` calls it, although the `Execute` trait in
`src/lib/jobs/mod.rs` does not declare it; the method is modelled from
the spec (`when()` → declared guard, default `true`).

The two worker threads (`MAX_THREADS = 2`) are modelled by a small-step
transition system.  The whole lock-protected critical section of one
loop iteration (skip pass, unblock pass, settled check, pick-and-remove)
is a single atomic step, because the source holds one mutex pair for all
of it; the `execute()` call and the lock-protected recording of its
result form the other step.  The ghost `log` records, in order, the
moment each job is taken (which is when its `execute()` is invoked) and
the moment its result is recorded.

The critical section is modelled twice.  The total model below (`crit`,
`Step`) replaces every `HashMap::get(..).unwrap()` by `getReg`, which
reads a default where the source would panic; the universally-quantified
safety theorems are stated over it, and the default only adds
behaviours.  The panic-aware model (`critP`, `StepP`, further down)
keeps each failing lookup as a worker panic; the termination and
exit-status claims, which a panic falsifies, are settled over it, and
`critP_eq` proves the two models agree wherever every lookup the section
performs is registered. -/

/-- A scheduler job: the `impl Execute + Send` surface seen by `run`. -/
structure RJob where
  name : String
  needs : List String
  whenGuard : Bool
  result : JResult
deriving DecidableEq, Repr

/-- The status map (`HashMap<String, jobs::Result>`). -/
abbrev RMap := List (String × JResult)

/-- `HashMap::insert`: overwrite the entry for a key.  (Every map is
built from `[]` by `mapInsert`, so keys are unique and replacing the
first occurrence is overwriting.) -/
def mapInsert : RMap → String → JResult → RMap
  | [], k, v => [(k, v)]
  | e :: rest, k, v =>
    if e.1 = k then (k, v) :: rest
    else e :: mapInsert rest k v

/-- `HashMap::get`. -/
def lookupRes : RMap → String → Option JResult
  | [], _ => none
  | e :: rest, n => if e.1 = n then some e.2 else lookupRes rest n

/-- `HashMap::get(..).unwrap()` in the total model of the critical
section.  The default stands in for the source's panic, which the
panic-aware `critP` below models exactly: `critP` returns `none` (the
worker panics) precisely where a lookup fails, and `critP_eq` proves
the two models agree whenever every name the section looks up is
registered — in particular, by `rinv_critP`, on every reachable state
of a job list without dangling needs.  The safety theorems quantify
over the total model, where the default only adds behaviours. -/
def getReg (rs : RMap) (n : String) : JResult :=
  (lookupRes rs n).getD (.error .somethingBad)

/-- `is_equal_status` from `src/lib/runner.rs`. -/
def isEqualStatus (r : JResult) (st : Status) : Bool :=
  match r with
  | .ok s => s = st
  | .error _ => false

/-- `is_all_settled` from `src/lib/runner.rs`. -/
def allSettled (rs : RMap) : Bool :=
  rs.all (fun e => is_result_settled e.2)

/-- The skip pass: `for job in jobs { if !job.when() { insert Skipped } }`
(left to right, threading the map). -/
def skipPass : List RJob → RMap → RMap
  | [], rs => rs
  | j :: rest, rs =>
    skipPass rest
      (if j.whenGuard then rs else mapInsert rs j.name (.ok .skipped))

/-- The unblock pass: move each Blocked job whose needs are all done over
to Pending (left to right, threading the map). -/
def unblockPass : List RJob → RMap → RMap
  | [], rs => rs
  | j :: rest, rs =>
    unblockPass rest
      (if isEqualStatus (getReg rs j.name) .blocked &&
          j.needs.all (fun n => is_result_done (getReg rs n))
       then mapInsert rs j.name (.ok .pending) else rs)

/-- Both passes in order, as run at the top of the critical section. -/
def passes (jobs : List RJob) (rs : RMap) : RMap :=
  unblockPass jobs (skipPass jobs rs)

/-- Find the first job whose status is Pending and remove it from the
list (`find` on the list followed by `Vec::remove` at the found index). -/
def pickFirst (rs : RMap) : List RJob → Option (RJob × List RJob)
  | [] => none
  | j :: rest =>
    if isEqualStatus (getReg rs j.name) .pending then some (j, rest)
    else
      match pickFirst rs rest with
      | some (x, rest2) => some (x, j :: rest2)
      | none => none

/-- The outcome of one critical section: the worker exits, or takes a
job. -/
inductive CritOut where
  | exit (rs : RMap) : CritOut
  | take (j : RJob) (rest : List RJob) (rs : RMap) : CritOut
deriving DecidableEq, Repr

/-- One critical section of the worker loop in `src/lib/runner.rs`:
skip pass, unblock pass, the `is_all_settled` exit check, then the
pick-and-remove of the first Pending job (exiting when there is none),
marking the picked job InProgress. -/
def crit (jobs : List RJob) (rs : RMap) : CritOut :=
  if allSettled (passes jobs rs) then .exit (passes jobs rs)
  else
    match pickFirst (passes jobs rs) jobs with
    | none => .exit (passes jobs rs)
    | some (j, rest) =>
      .take j rest (mapInsert (passes jobs rs) j.name (.ok .inProgress))

/-- The phase of one worker thread. -/
inductive WorkerPhase where
  | atLoop : WorkerPhase
  | executing (j : RJob) : WorkerPhase
  | exited : WorkerPhase
deriving DecidableEq, Repr

/-- Ghost events: a job is taken (its `execute()` is invoked), or its
result is recorded. -/
inductive REvent where
  | taken (j : RJob) : REvent
  | recorded (j : RJob) : REvent
deriving DecidableEq, Repr

/-- `MAX_THREADS` from `src/lib/runner.rs`. -/
abbrev MAX_THREADS : Nat := 2

/-- The shared state of `run`: the remaining job list, the status map,
the two workers' phases, and the ghost event log. -/
structure RunState where
  jobs : List RJob
  results : RMap
  workers : Fin MAX_THREADS → WorkerPhase
  log : List REvent

/-- Seeding of the status map at the top of `run`: Pending for a job with
no needs, Blocked otherwise. -/
def seedResults : List RJob → RMap → RMap
  | [], rs => rs
  | j :: rest, rs =>
    seedResults rest
      (mapInsert rs j.name
        (if j.needs.isEmpty then .ok .pending else .ok .blocked))

/-- The state of `run` just after seeding, before any worker moves. -/
def initState (jobs : List RJob) : RunState :=
  { jobs := jobs, results := seedResults jobs [],
    workers := fun _ => .atLoop, log := [] }

/-- One step of the interleaved execution: a worker at the top of its
loop runs a critical section and exits or takes a job, or a worker
holding a job finishes `execute()` and records the job's result. -/
inductive Step : RunState → RunState → Prop where
  | exit (s : RunState) (w : Fin MAX_THREADS) (rs2 : RMap)
      (hw : s.workers w = .atLoop)
      (hc : crit s.jobs s.results = .exit rs2) :
      Step s { jobs := s.jobs, results := rs2,
               workers := Function.update s.workers w .exited,
               log := s.log }
  | take (s : RunState) (w : Fin MAX_THREADS) (j : RJob)
      (rest : List RJob) (rs2 : RMap)
      (hw : s.workers w = .atLoop)
      (hc : crit s.jobs s.results = .take j rest rs2) :
      Step s { jobs := rest, results := rs2,
               workers := Function.update s.workers w (.executing j),
               log := s.log ++ [.taken j] }
  | record (s : RunState) (w : Fin MAX_THREADS) (j : RJob)
      (hw : s.workers w = .executing j) :
      Step s { jobs := s.jobs,
               results := mapInsert s.results j.name j.result,
               workers := Function.update s.workers w .atLoop,
               log := s.log ++ [.recorded j] }

/-- The states reachable by `run(jobs)`. -/
def Reach (jobs : List RJob) (s : RunState) : Prop :=
  Relation.ReflTransGen Step (initState jobs) s

/-- `run` has returned: every worker has exited (so `join` succeeded). -/
def AllExited (s : RunState) : Prop :=
  ∀ w, s.workers w = .exited

/-! ### Status-map lemmas -/

theorem lookupRes_mapInsert_cases (m : RMap) (k n : String) (v : JResult) :
    lookupRes (mapInsert m k v) n =
      if k = n then some v else lookupRes m n := by
  induction m with
  | nil =>
    unfold mapInsert lookupRes
    by_cases h : k = n <;> simp [h, lookupRes]
  | cons e rest ih =>
    unfold mapInsert
    by_cases he : e.1 = k
    · rw [if_pos he]
      unfold lookupRes
      by_cases hk : k = n
      · rw [if_pos hk, if_pos hk]
      · rw [if_neg hk, if_neg hk]
        unfold lookupRes
        rw [if_neg (by rw [he]; exact hk)]
    · rw [if_neg he]
      unfold lookupRes
      by_cases hen : e.1 = n
      · rw [if_pos hen, if_pos hen,
          if_neg (by intro hk; exact he (by rw [hk, hen]))]
      · rw [if_neg hen, if_neg hen, ih]

theorem lookupRes_mapInsert_isSome (m : RMap) (k n : String) (v : JResult)
    (h : (lookupRes m n).isSome = true) :
    (lookupRes (mapInsert m k v) n).isSome = true := by
  rw [lookupRes_mapInsert_cases]
  by_cases hk : k = n <;> simp [hk, h]

theorem allSettled_lookup {rs : RMap} (h : allSettled rs = true) {n : String}
    {r : JResult} (hl : lookupRes rs n = some r) :
    is_result_settled r = true := by
  induction rs with
  | nil => exact absurd hl (by simp [lookupRes])
  | cons e rest ih =>
    unfold allSettled at h
    rw [List.all_cons, Bool.and_eq_true] at h
    unfold lookupRes at hl
    by_cases he : e.1 = n
    · rw [if_pos he] at hl
      cases hl
      exact h.1
    · rw [if_neg he] at hl
      exact ih h.2 hl

theorem getReg_done_iff {rs : RMap} {n : String} :
    is_result_done (getReg rs n) = true ↔
      ∃ r, lookupRes rs n = some r ∧ is_result_done r = true := by
  unfold getReg
  cases h : lookupRes rs n with
  | none => simp [is_result_done]
  | some r => simp

theorem isEqual_getReg_iff {rs : RMap} {n : String} {st : Status} :
    isEqualStatus (getReg rs n) st = true ↔
      lookupRes rs n = some (.ok st) := by
  unfold getReg
  cases h : lookupRes rs n with
  | none => simp [isEqualStatus]
  | some r =>
    cases r with
    | error e => simp [isEqualStatus]
    | ok s => simp [isEqualStatus]

theorem getReg_insert_done_reflect {rs : RMap} {k n : String} {v : JResult}
    (hv : is_result_done v = false)
    (h : is_result_done (getReg (mapInsert rs k v) n) = true) :
    is_result_done (getReg rs n) = true := by
  unfold getReg at *
  rw [lookupRes_mapInsert_cases] at h
  by_cases hk : k = n
  · rw [if_pos hk] at h
    simp only [Option.getD_some] at h
    rw [hv] at h
    exact absurd h (by simp)
  · rw [if_neg hk] at h
    exact h

/-! ### Pass lemmas -/

theorem skipPass_lookup (l : List RJob) (rs : RMap) {n : String}
    {r : JResult} (h : lookupRes (skipPass l rs) n = some r) :
    r = .ok .skipped ∨ lookupRes rs n = some r := by
  induction l generalizing rs with
  | nil => exact .inr h
  | cons j rest ih =>
    unfold skipPass at h
    rcases ih _ h with h1 | h1
    · exact .inl h1
    · by_cases hw : j.whenGuard
      · rw [if_pos hw] at h1
        exact .inr h1
      · rw [if_neg hw, lookupRes_mapInsert_cases] at h1
        by_cases hk : j.name = n
        · rw [if_pos hk] at h1
          cases h1
          exact .inl rfl
        · rw [if_neg hk] at h1
          exact .inr h1

theorem skipPass_isSome (l : List RJob) (rs : RMap) {n : String}
    (h : (lookupRes rs n).isSome = true) :
    (lookupRes (skipPass l rs) n).isSome = true := by
  induction l generalizing rs with
  | nil => exact h
  | cons j rest ih =>
    unfold skipPass
    by_cases hw : j.whenGuard
    · rw [if_pos hw]
      exact ih _ h
    · rw [if_neg hw]
      exact ih _ (lookupRes_mapInsert_isSome _ _ _ _ h)

theorem skipPass_preserves_skipped (l : List RJob) (rs : RMap) {n : String}
    (h : lookupRes rs n = some (.ok .skipped)) :
    lookupRes (skipPass l rs) n = some (.ok .skipped) := by
  induction l generalizing rs with
  | nil => exact h
  | cons j rest ih =>
    unfold skipPass
    by_cases hw : j.whenGuard
    · rw [if_pos hw]
      exact ih _ h
    · rw [if_neg hw]
      refine ih _ ?_
      rw [lookupRes_mapInsert_cases]
      by_cases hk : j.name = n
      · rw [if_pos hk]
      · rw [if_neg hk]
        exact h

theorem skipPass_skipped_of_mem (l : List RJob) (rs : RMap) {j : RJob}
    (hj : j ∈ l) (hw : j.whenGuard = false) :
    lookupRes (skipPass l rs) j.name = some (.ok .skipped) := by
  induction l generalizing rs with
  | nil => simp at hj
  | cons k rest ih =>
    unfold skipPass
    rcases List.mem_cons.mp hj with hj | hj
    · subst hj
      rw [if_neg (by rw [hw]; simp)]
      exact skipPass_preserves_skipped _ _ (by
        rw [lookupRes_mapInsert_cases, if_pos rfl])
    · by_cases hkw : k.whenGuard
      · rw [if_pos hkw]
        exact ih _ hj
      · rw [if_neg hkw]
        exact ih _ hj

theorem skipPass_preserve_of_when (l : List RJob) (rs : RMap) {n : String}
    (hw : ∀ j ∈ l, j.name = n → j.whenGuard = true) :
    lookupRes (skipPass l rs) n = lookupRes rs n := by
  induction l generalizing rs with
  | nil => rfl
  | cons j rest ih =>
    unfold skipPass
    by_cases hjw : j.whenGuard
    · rw [if_pos hjw]
      exact ih _ (fun k hk => hw k (List.mem_cons_of_mem _ hk))
    · rw [if_neg hjw]
      rw [ih _ (fun k hk => hw k (List.mem_cons_of_mem _ hk))]
      rw [lookupRes_mapInsert_cases]
      rw [if_neg (fun hk => hjw (hw j (List.mem_cons_self _ _) hk))]

theorem skipPass_done_reflect (l : List RJob) (rs : RMap) {n : String}
    (h : is_result_done (getReg (skipPass l rs) n) = true) :
    is_result_done (getReg rs n) = true := by
  induction l generalizing rs with
  | nil => exact h
  | cons j rest ih =>
    unfold skipPass at h
    have h2 := ih _ h
    by_cases hw : j.whenGuard
    · rw [if_pos hw] at h2
      exact h2
    · rw [if_neg hw] at h2
      exact getReg_insert_done_reflect (by rfl) h2

theorem unblockPass_lookup (l : List RJob) (rs : RMap) {n : String}
    {r : JResult} (h : lookupRes (unblockPass l rs) n = some r) :
    (r = .ok .pending ∧ ∃ j ∈ l, j.name = n ∧
      ∀ b ∈ j.needs, is_result_done (getReg rs b) = true) ∨
    lookupRes rs n = some r := by
  induction l generalizing rs with
  | nil => exact .inr h
  | cons j rest ih =>
    unfold unblockPass at h
    rcases ih _ h with ⟨hr, k, hk, hkn, hkd⟩ | h1
    · -- written deeper in the fold; pull the doneness back one step
      refine .inl ⟨hr, k, List.mem_cons_of_mem _ hk, hkn, fun b hb => ?_⟩
      have hd := hkd b hb
      by_cases hc : (isEqualStatus (getReg rs j.name) .blocked &&
          j.needs.all (fun n => is_result_done (getReg rs n))) = true
      · rw [if_pos hc] at hd
        exact getReg_insert_done_reflect (by rfl) hd
      · rw [if_neg hc] at hd
        exact hd
    · by_cases hc : (isEqualStatus (getReg rs j.name) .blocked &&
          j.needs.all (fun n => is_result_done (getReg rs n))) = true
      · rw [if_pos hc, lookupRes_mapInsert_cases] at h1
        by_cases hk : j.name = n
        · rw [if_pos hk] at h1
          cases h1
          rw [Bool.and_eq_true, List.all_eq_true] at hc
          exact .inl ⟨rfl, j, List.mem_cons_self _ _, hk,
            fun b hb => hc.2 b hb⟩
        · rw [if_neg hk] at h1
          exact .inr h1
      · rw [if_neg hc] at h1
        exact .inr h1

theorem unblockPass_isSome (l : List RJob) (rs : RMap) {n : String}
    (h : (lookupRes rs n).isSome = true) :
    (lookupRes (unblockPass l rs) n).isSome = true := by
  induction l generalizing rs with
  | nil => exact h
  | cons j rest ih =>
    unfold unblockPass
    split
    · exact ih _ (lookupRes_mapInsert_isSome _ _ _ _ h)
    · exact ih _ h

theorem unblockPass_preserves_skipped (l : List RJob) (rs : RMap)
    {n : String} (h : lookupRes rs n = some (.ok .skipped)) :
    lookupRes (unblockPass l rs) n = some (.ok .skipped) := by
  induction l generalizing rs with
  | nil => exact h
  | cons j rest ih =>
    unfold unblockPass
    by_cases hk : j.name = n
    · have hge : isEqualStatus (getReg rs j.name) .blocked = false := by
        rw [hk]
        unfold getReg
        rw [h]
        simp [isEqualStatus]
      have hcf : ¬ (isEqualStatus (getReg rs j.name) .blocked &&
          j.needs.all (fun n => is_result_done (getReg rs n))) = true := by
        rw [Bool.and_eq_true]
        intro hc
        rw [hge] at hc
        exact absurd hc.1 (by simp)
      rw [if_neg hcf]
      exact ih _ h
    · split
      · refine ih _ ?_
        rw [lookupRes_mapInsert_cases, if_neg hk]
        exact h
      · exact ih _ h

theorem unblockPass_done_reflect (l : List RJob) (rs : RMap) {n : String}
    (h : is_result_done (getReg (unblockPass l rs) n) = true) :
    is_result_done (getReg rs n) = true := by
  induction l generalizing rs with
  | nil => exact h
  | cons j rest ih =>
    unfold unblockPass at h
    have h2 := ih _ h
    by_cases hc : (isEqualStatus (getReg rs j.name) .blocked &&
        j.needs.all (fun n => is_result_done (getReg rs n))) = true
    · rw [if_pos hc] at h2
      exact getReg_insert_done_reflect (by rfl) h2
    · rw [if_neg hc] at h2
      exact h2

theorem unblockPass_preserve_blocked (l : List RJob) (rs : RMap)
    {n : String} (h : lookupRes rs n = some (.ok .blocked))
    (hobs : ∀ j ∈ l, j.name = n →
      ∃ b ∈ j.needs, is_result_done (getReg rs b) = false) :
    lookupRes (unblockPass l rs) n = some (.ok .blocked) := by
  induction l generalizing rs with
  | nil => exact h
  | cons j rest ih =>
    unfold unblockPass
    by_cases hk : j.name = n
    · obtain ⟨b, hb, hbd⟩ := hobs j (List.mem_cons_self _ _) hk
      rw [if_neg (by
        rw [Bool.and_eq_true, List.all_eq_true]
        intro hc
        rw [hc.2 b hb] at hbd
        exact absurd hbd (by simp))]
      exact ih _ h (fun k hkr hkn => hobs k (List.mem_cons_of_mem _ hkr) hkn)
    · by_cases hc : (isEqualStatus (getReg rs j.name) .blocked &&
          j.needs.all (fun n => is_result_done (getReg rs n))) = true
      · rw [if_pos hc]
        refine ih _ ?_ ?_
        · rw [lookupRes_mapInsert_cases, if_neg hk]
          exact h
        · intro k hkr hkn
          obtain ⟨b, hb, hbd⟩ := hobs k (List.mem_cons_of_mem _ hkr) hkn
          refine ⟨b, hb, ?_⟩
          unfold getReg at hbd ⊢
          rw [lookupRes_mapInsert_cases]
          by_cases hjb : j.name = b
          · rw [if_pos hjb]
            rfl
          · rw [if_neg hjb]
            exact hbd
      · rw [if_neg hc]
        exact ih _ h
          (fun k hkr hkn => hobs k (List.mem_cons_of_mem _ hkr) hkn)

/-! ### Combined-pass lemmas -/

theorem passes_lookup {jobs : List RJob} {rs : RMap} {n : String}
    {r : JResult} (h : lookupRes (passes jobs rs) n = some r) :
    r = .ok .skipped ∨
    (r = .ok .pending ∧ ∃ j ∈ jobs, j.name = n ∧
      ∀ b ∈ j.needs, is_result_done (getReg rs b) = true) ∨
    lookupRes rs n = some r := by
  unfold passes at h
  rcases unblockPass_lookup _ _ h with ⟨hr, j, hj, hjn, hjd⟩ | h1
  · exact .inr (.inl ⟨hr, j, hj, hjn,
      fun b hb => skipPass_done_reflect _ _ (hjd b hb)⟩)
  · rcases skipPass_lookup _ _ h1 with h2 | h2
    · exact .inl h2
    · exact .inr (.inr h2)

theorem passes_isSome {jobs : List RJob} {rs : RMap} {n : String}
    (h : (lookupRes rs n).isSome = true) :
    (lookupRes (passes jobs rs) n).isSome = true :=
  unblockPass_isSome _ _ (skipPass_isSome _ _ h)

theorem passes_skipped_of_mem {jobs : List RJob} {rs : RMap} {j : RJob}
    (hj : j ∈ jobs) (hw : j.whenGuard = false) :
    lookupRes (passes jobs rs) j.name = some (.ok .skipped) :=
  unblockPass_preserves_skipped _ _ (skipPass_skipped_of_mem _ _ hj hw)

theorem passes_done_reflect {jobs : List RJob} {rs : RMap} {n : String}
    (h : is_result_done (getReg (passes jobs rs) n) = true) :
    is_result_done (getReg rs n) = true :=
  skipPass_done_reflect _ _ (unblockPass_done_reflect _ _ h)

/-! ### Pick lemmas -/

theorem pickFirst_some {rs : RMap} {l : List RJob} {j : RJob}
    {rest : List RJob} (h : pickFirst rs l = some (j, rest)) :
    ∃ l1 l2, l = l1 ++ j :: l2 ∧ rest = l1 ++ l2 ∧
      isEqualStatus (getReg rs j.name) .pending = true := by
  induction l generalizing rest with
  | nil => exact absurd h (by simp [pickFirst])
  | cons k tail ih =>
    unfold pickFirst at h
    by_cases hk : isEqualStatus (getReg rs k.name) .pending = true
    · rw [if_pos hk] at h
      injection h with h2
      injection h2 with h3 h4
      subst h3
      subst h4
      exact ⟨[], tail, rfl, rfl, hk⟩
    · rw [if_neg hk] at h
      match hp : pickFirst rs tail with
      | some (x, rest2) =>
        rw [hp] at h
        injection h with h2
        injection h2 with h3 h4
        subst h3
        obtain ⟨l1, l2, he1, he2, hst⟩ := ih hp
        exact ⟨k :: l1, l2, by rw [he1]; rfl, by rw [← h4, he2]; rfl, hst⟩
      | none => rw [hp] at h; exact absurd h (by simp)

theorem pickFirst_none {rs : RMap} {l : List RJob}
    (h : pickFirst rs l = none) :
    ∀ j ∈ l, isEqualStatus (getReg rs j.name) .pending = false := by
  induction l with
  | nil => intro j hj; simp at hj
  | cons k tail ih =>
    unfold pickFirst at h
    by_cases hk : isEqualStatus (getReg rs k.name) .pending = true
    · rw [if_pos hk] at h
      exact absurd h (by simp)
    · rw [if_neg hk] at h
      intro j hj
      rcases List.mem_cons.mp hj with hj | hj
      · subst hj
        exact Bool.eq_false_iff.mpr hk
      · match hp : pickFirst rs tail with
        | some (x, rest2) => rw [hp] at h; exact absurd h (by simp)
        | none => exact ih hp j hj

/-! ### Critical-section lemmas -/

theorem crit_exit_shape {jobs : List RJob} {rs rs2 : RMap}
    (h : crit jobs rs = .exit rs2) :
    rs2 = passes jobs rs ∧
      (allSettled (passes jobs rs) = true ∨
        pickFirst (passes jobs rs) jobs = none) := by
  unfold crit at h
  split at h
  · rename_i hset
    injection h with h2
    exact ⟨h2.symm, .inl hset⟩
  · rename_i hset
    split at h
    · rename_i hpf
      injection h with h2
      exact ⟨h2.symm, .inr hpf⟩
    · exact absurd h (by simp)

theorem crit_take_shape {jobs : List RJob} {rs rs2 : RMap} {j : RJob}
    {rest : List RJob} (h : crit jobs rs = .take j rest rs2) :
    pickFirst (passes jobs rs) jobs = some (j, rest) ∧
      rs2 = mapInsert (passes jobs rs) j.name (.ok .inProgress) ∧
      allSettled (passes jobs rs) = false := by
  unfold crit at h
  split at h
  · exact absurd h (by simp)
  · rename_i hset
    split at h
    · exact absurd h (by simp)
    · rename_i jx restx hpf
      injection h with h1 h2 h3
      subst h1
      subst h2
      exact ⟨hpf, h3.symm, Bool.eq_false_iff.mpr hset⟩

/-! ### Seeding lemmas -/

theorem seedResults_isSome_preserve (l : List RJob) (rs : RMap) {n : String}
    (h : (lookupRes rs n).isSome = true) :
    (lookupRes (seedResults l rs) n).isSome = true := by
  induction l generalizing rs with
  | nil => exact h
  | cons j rest ih =>
    unfold seedResults
    exact ih _ (lookupRes_mapInsert_isSome _ _ _ _ h)

theorem seedResults_isSome (l : List RJob) (rs : RMap) {j : RJob}
    (hj : j ∈ l) : (lookupRes (seedResults l rs) j.name).isSome = true := by
  induction l generalizing rs with
  | nil => simp at hj
  | cons k rest ih =>
    unfold seedResults
    rcases List.mem_cons.mp hj with hj | hj
    · subst hj
      exact seedResults_isSome_preserve _ _
        (by rw [lookupRes_mapInsert_cases, if_pos rfl]; rfl)
    · exact ih _ hj

theorem seedResults_lookup (l : List RJob) (rs : RMap) {n : String}
    {r : JResult} (h : lookupRes (seedResults l rs) n = some r) :
    (∃ j ∈ l, j.name = n ∧
      r = (if j.needs.isEmpty then .ok .pending else .ok .blocked)) ∨
    lookupRes rs n = some r := by
  induction l generalizing rs with
  | nil => exact .inr h
  | cons j rest ih =>
    unfold seedResults at h
    rcases ih _ h with ⟨k, hk, hkn, hkr⟩ | h1
    · exact .inl ⟨k, List.mem_cons_of_mem _ hk, hkn, hkr⟩
    · rw [lookupRes_mapInsert_cases] at h1
      by_cases hk : j.name = n
      · rw [if_pos hk] at h1
        cases h1
        exact .inl ⟨j, List.mem_cons_self _ _, hk, rfl⟩
      · rw [if_neg hk] at h1
        exact .inr h1

theorem seedResults_preserve_ne (l : List RJob) (rs : RMap) {n : String}
    (hn : ∀ j ∈ l, ¬ j.name = n) :
    lookupRes (seedResults l rs) n = lookupRes rs n := by
  induction l generalizing rs with
  | nil => rfl
  | cons j rest ih =>
    unfold seedResults
    rw [ih _ (fun k hk => hn k (List.mem_cons_of_mem _ hk)),
      lookupRes_mapInsert_cases, if_neg (hn j (List.mem_cons_self _ _))]

theorem seedResults_lookup_nodup {l : List RJob} (rs : RMap) {A : RJob}
    (hnodup : (l.map RJob.name).Nodup) (hA : A ∈ l) :
    lookupRes (seedResults l rs) A.name =
      some (if A.needs.isEmpty then .ok .pending else .ok .blocked) := by
  induction l generalizing rs with
  | nil => simp at hA
  | cons j rest ih =>
    rw [List.map_cons, List.nodup_cons] at hnodup
    unfold seedResults
    rcases List.mem_cons.mp hA with hA | hA
    · subst hA
      rw [seedResults_preserve_ne _ _ (fun k hk hkn => hnodup.1 (by
        rw [← hkn]; exact List.mem_map_of_mem _ hk))]
      rw [lookupRes_mapInsert_cases, if_pos rfl]
    · exact ih _ hnodup.2 hA

/-! ### Counting taken events -/

/-- The number of jobs with a given name in a list. -/
def countName (n : String) : List RJob → Nat
  | [] => 0
  | j :: rest => (if j.name = n then 1 else 0) + countName n rest

/-- The number of `taken` events for a given name in a log. -/
def countTaken (n : String) : List REvent → Nat
  | [] => 0
  | .taken j :: rest => (if j.name = n then 1 else 0) + countTaken n rest
  | .recorded _ :: rest => countTaken n rest

theorem countName_append (n : String) (l1 l2 : List RJob) :
    countName n (l1 ++ l2) = countName n l1 + countName n l2 := by
  induction l1 with
  | nil => simp [countName]
  | cons j rest ih => simp [countName, ih]; omega

theorem countTaken_append (n : String) (l1 l2 : List REvent) :
    countTaken n (l1 ++ l2) = countTaken n l1 + countTaken n l2 := by
  induction l1 with
  | nil => simp [countTaken]
  | cons e rest ih =>
    cases e with
    | taken j => simp [countTaken, ih]; omega
    | recorded j => simp [countTaken, ih]

theorem countName_le_one_of_nodup {l : List RJob}
    (h : (l.map RJob.name).Nodup) (n : String) : countName n l ≤ 1 := by
  induction l with
  | nil => simp [countName]
  | cons j rest ih =>
    rw [List.map_cons, List.nodup_cons] at h
    unfold countName
    by_cases hj : j.name = n
    · rw [if_pos hj]
      have : countName n rest = 0 := by
        clear ih
        induction rest with
        | nil => rfl
        | cons k tail ih2 =>
          unfold countName
          rw [List.map_cons] at h
          have hk : ¬ k.name = n := by
            intro hk
            exact h.1 (by rw [hj, ← hk]; exact List.mem_cons_self _ _)
          rw [if_neg hk, ih2 ⟨fun hm => h.1 (List.mem_cons_of_mem _ hm),
            (List.nodup_cons.mp h.2).2⟩]
      omega
    · rw [if_neg hj]
      simpa using ih h.2

/-! ### Conservation of taken events -/

theorem reach_conserve {jobs : List RJob} {s : RunState}
    (h : Reach jobs s) (n : String) :
    countName n s.jobs + countTaken n s.log = countName n jobs := by
  induction h with
  | refl => simp [initState, countTaken]
  | tail hr hstep ih =>
    cases hstep with
    | exit w rs2 hw hc => simpa using ih
    | take w j rest rs2 hw hc =>
      obtain ⟨l1, l2, he1, he2, -⟩ := pickFirst_some (crit_take_shape hc).1
      simp only
      rw [he2, countTaken_append, countName_append]
      rw [he1, countName_append] at ih
      simp only [countName, countTaken] at *
      omega
    | record w j hw =>
      simp only
      rw [countTaken_append]
      simp only [countTaken]
      simpa using ih

/-- C4.  The scheduler invokes each job's `execute()` at most once per
run: with unique job names, at most one `taken` event for any name
appears in the log of a reachable state (a job is executed exactly when
it is taken, and taking removes it from the list under the lock). -/
theorem no_double_execution (jobs : List RJob)
    (hnodup : (jobs.map RJob.name).Nodup) (s : RunState)
    (hreach : Reach jobs s) (n : String) :
    countTaken n s.log ≤ 1 := by
  have hc := reach_conserve hreach n
  have h1 := countName_le_one_of_nodup hnodup n
  omega

/-- Witness for `no_double_execution`: the initial state of a one-job
run. -/
theorem no_double_execution_witness :
    countTaken "a" (initState [(⟨"a", [], true, .ok .done⟩ : RJob)]).log ≤ 1 :=
  no_double_execution [(⟨"a", [], true, .ok .done⟩ : RJob)]
    (by decide) _ Relation.ReflTransGen.refl "a"

/-! ### The scheduler invariant -/

/-- The direct-prerequisite relation between job names: `n` names a job
of the list whose `needs` contains `m`. -/
def needsRel (J : List RJob) (n m : String) : Prop :=
  ∃ j ∈ J, j.name = n ∧ m ∈ j.needs

/-- The inductive invariant of the scheduler, over the initial job list
`J`.  `hres` (every job's execute result is settled) is required to
maintain `pendingList`, `inprogHeld` and `pendingNeeds` through a record
step; it holds for every job type of this program. -/
structure RInv (J : List RJob) (s : RunState) : Prop where
  listSub : ∀ j ∈ s.jobs, j ∈ J
  heldJobs : ∀ w j, s.workers w = .executing j → j ∈ J
  heldTaken : ∀ w j, s.workers w = .executing j → REvent.taken j ∈ s.log
  regAll : ∀ j ∈ J, (lookupRes s.results j.name).isSome = true
  resVals : ∀ n r, lookupRes s.results n = some r →
    r = .ok .pending ∨ r = .ok .blocked ∨ r = .ok .inProgress ∨
      r = .ok .skipped ∨ ∃ j ∈ J, j.name = n ∧ r = j.result
  pendingList : ∀ n, lookupRes s.results n = some (.ok .pending) →
    ∃ j ∈ s.jobs, j.name = n
  inprogHeld : ∀ n, lookupRes s.results n = some (.ok .inProgress) →
    ∃ w j, s.workers w = .executing j ∧ j.name = n
  doneRec : ∀ n r, lookupRes s.results n = some r →
    is_result_done r = true →
    ∃ jr, REvent.recorded jr ∈ s.log ∧ jr.name = n ∧ jr.result = r
  recTaken : ∀ j, REvent.recorded j ∈ s.log → REvent.taken j ∈ s.log
  takenWhen : ∀ j, REvent.taken j ∈ s.log → j ∈ J ∧ j.whenGuard = true
  pendingNeeds : ∀ n, lookupRes s.results n = some (.ok .pending) →
    ∃ j2 ∈ J, j2.name = n ∧ ∀ b ∈ j2.needs,
      ∃ jr, REvent.recorded jr ∈ s.log ∧ jr.name = b ∧
        is_result_done jr.result = true
  takenNeeds : ∀ l1 j l2, s.log = l1 ++ .taken j :: l2 →
    ∃ j2 ∈ J, j2.name = j.name ∧ ∀ b ∈ j2.needs,
      ∃ jr, REvent.recorded jr ∈ l1 ∧ jr.name = b ∧
        is_result_done jr.result = true
  whenFalseList : ∀ j ∈ J, j.whenGuard = false → j ∈ s.jobs

theorem append_singleton_split {α : Type} {l l1 l2 : List α} {x e : α}
    (h : l ++ [e] = l1 ++ x :: l2) :
    (l2 = [] ∧ x = e ∧ l1 = l) ∨
    (∃ l2p, l2 = l2p ++ [e] ∧ l = l1 ++ x :: l2p) := by
  rcases List.eq_nil_or_concat l2 with h2 | ⟨l2p, b, h2⟩
  · subst h2
    left
    have hlen : l.length = l1.length := by
      have := congrArg List.length h
      simp at this
      omega
    obtain ⟨he1, he2⟩ := List.append_inj h hlen
    injection he2 with he3
    exact ⟨rfl, he3.symm, he1.symm⟩
  · subst h2
    right
    simp only [List.concat_eq_append] at h ⊢
    rw [show l1 ++ x :: (l2p ++ [b]) = (l1 ++ x :: l2p) ++ [b] by simp] at h
    have hlen : l.length = (l1 ++ x :: l2p).length := by
      have := congrArg List.length h
      simp at this
      simp
      omega
    obtain ⟨he1, he2⟩ := List.append_inj h hlen
    injection he2 with he3
    exact ⟨l2p, by rw [he3], he1⟩

/-- The entry the passes produce for a name, analysed under the
invariant: skipped, newly pending for a job of the remaining list, or the
old entry. -/
theorem rinv_passes_pending {J : List RJob} {s : RunState} (inv : RInv J s)
    {n : String}
    (h : lookupRes (passes s.jobs s.results) n = some (.ok .pending)) :
    ∃ j2 ∈ J, j2.name = n ∧ ∀ b ∈ j2.needs,
      ∃ jr, REvent.recorded jr ∈ s.log ∧ jr.name = b ∧
        is_result_done jr.result = true := by
  rcases passes_lookup h with hsk | ⟨-, j, hj, hjn, hjd⟩ | hrs
  · exact absurd hsk (by simp)
  · refine ⟨j, inv.listSub j hj, hjn, fun b hb => ?_⟩
    have hd := hjd b hb
    rw [getReg_done_iff] at hd
    obtain ⟨rb, hrb, hrbd⟩ := hd
    obtain ⟨jr, hjr, hjrn, hjrr⟩ := inv.doneRec b rb hrb hrbd
    exact ⟨jr, hjr, hjrn, by rw [hjrr]; exact hrbd⟩
  · exact inv.pendingNeeds n hrs

theorem rinv_passes_pendingList {J : List RJob} {s : RunState}
    (inv : RInv J s) {n : String}
    (h : lookupRes (passes s.jobs s.results) n = some (.ok .pending)) :
    ∃ j ∈ s.jobs, j.name = n := by
  rcases passes_lookup h with hsk | ⟨-, j, hj, hjn, -⟩ | hrs
  · exact absurd hsk (by simp)
  · exact ⟨j, hj, hjn⟩
  · exact inv.pendingList n hrs

theorem rinv_passes_inprog {J : List RJob} {s : RunState} (_inv : RInv J s)
    {n : String}
    (h : lookupRes (passes s.jobs s.results) n = some (.ok .inProgress)) :
    lookupRes s.results n = some (.ok .inProgress) := by
  rcases passes_lookup h with hsk | ⟨hp, -⟩ | hrs
  · exact absurd hsk (by simp)
  · exact absurd hp (by simp)
  · exact hrs

theorem rinv_passes_done {J : List RJob} {s : RunState} (inv : RInv J s)
    {n : String} {r : JResult}
    (h : lookupRes (passes s.jobs s.results) n = some r)
    (hd : is_result_done r = true) :
    ∃ jr, REvent.recorded jr ∈ s.log ∧ jr.name = n ∧ jr.result = r := by
  rcases passes_lookup h with hsk | ⟨hp, -⟩ | hrs
  · subst hsk
    exact absurd hd (by simp [is_result_done, Status.is_done])
  · subst hp
    exact absurd hd (by simp [is_result_done, Status.is_done])
  · exact inv.doneRec n r hrs hd

theorem rinv_passes_vals {J : List RJob} {s : RunState} (inv : RInv J s)
    {n : String} {r : JResult}
    (h : lookupRes (passes s.jobs s.results) n = some r) :
    r = .ok .pending ∨ r = .ok .blocked ∨ r = .ok .inProgress ∨
      r = .ok .skipped ∨ ∃ j ∈ J, j.name = n ∧ r = j.result := by
  rcases passes_lookup h with hsk | ⟨hp, -⟩ | hrs
  · exact .inr (.inr (.inr (.inl hsk)))
  · exact .inl hp
  · exact inv.resVals n r hrs

/-- The invariant holds at the initial state. -/
theorem rinv_init (jobs : List RJob) : RInv jobs (initState jobs) := by
  refine ⟨?_, ?_, ?_, ?_, ?_, ?_, ?_, ?_, ?_, ?_, ?_, ?_, ?_⟩
  · intro j hj
    exact hj
  · intro w j hwj
    exact absurd hwj (by simp [initState])
  · intro w j hwj
    exact absurd hwj (by simp [initState])
  · intro j hj
    exact seedResults_isSome _ _ hj
  · intro n r h
    rcases seedResults_lookup _ _ h with ⟨j, hj, hjn, hjr⟩ | h1
    · by_cases he : j.needs.isEmpty
      · rw [if_pos he] at hjr
        exact .inl hjr
      · rw [if_neg he] at hjr
        exact .inr (.inl hjr)
    · exact absurd h1 (by simp [lookupRes])
  · intro n h
    rcases seedResults_lookup _ _ h with ⟨j, hj, hjn, hjr⟩ | h1
    · exact ⟨j, hj, hjn⟩
    · exact absurd h1 (by simp [lookupRes])
  · intro n h
    rcases seedResults_lookup _ _ h with ⟨j, hj, hjn, hjr⟩ | h1
    · by_cases he : j.needs.isEmpty <;> simp [he] at hjr
    · exact absurd h1 (by simp [lookupRes])
  · intro n r h hd
    rcases seedResults_lookup _ _ h with ⟨j, hj, hjn, hjr⟩ | h1
    · subst hjr
      by_cases he : j.needs.isEmpty <;>
        simp [he, is_result_done, Status.is_done] at hd
    · exact absurd h1 (by simp [lookupRes])
  · intro j hj
    exact absurd hj (by simp [initState])
  · intro j hj
    exact absurd hj (by simp [initState])
  · intro n h
    rcases seedResults_lookup _ _ h with ⟨j, hj, hjn, hjr⟩ | h1
    · refine ⟨j, hj, hjn, fun b hb => ?_⟩
      by_cases he : j.needs.isEmpty
      · rw [List.isEmpty_iff.mp he] at hb
        simp at hb
      · rw [if_neg he] at hjr
        exact absurd hjr (by simp)
    · exact absurd h1 (by simp [lookupRes])
  · intro l1 j l2 h
    exact absurd h (by simp [initState])
  · intro j hj hw
    exact hj

theorem rinv_exit {J : List RJob} {s : RunState} (inv : RInv J s)
    {w : Fin MAX_THREADS} {rs2 : RMap} (hw : s.workers w = .atLoop)
    (hc : crit s.jobs s.results = .exit rs2) :
    RInv J { jobs := s.jobs, results := rs2,
             workers := Function.update s.workers w .exited,
             log := s.log } := by
  obtain ⟨hrs2, -⟩ := crit_exit_shape hc
  subst hrs2
  refine ⟨?_, ?_, ?_, ?_, ?_, ?_, ?_, ?_, ?_, ?_, ?_, ?_, ?_⟩
  · exact inv.listSub
  · intro w2 j hwj
    simp only [Function.update_apply] at hwj
    by_cases hww : w2 = w
    · rw [if_pos hww] at hwj
      cases hwj
    · rw [if_neg hww] at hwj
      exact inv.heldJobs w2 j hwj
  · intro w2 j hwj
    simp only [Function.update_apply] at hwj
    by_cases hww : w2 = w
    · rw [if_pos hww] at hwj
      cases hwj
    · rw [if_neg hww] at hwj
      exact inv.heldTaken w2 j hwj
  · intro j hj
    exact passes_isSome (inv.regAll j hj)
  · intro n r h
    exact rinv_passes_vals inv h
  · intro n h
    exact rinv_passes_pendingList inv h
  · intro n h
    have h2 := rinv_passes_inprog inv h
    obtain ⟨w2, j, hwj, hjn⟩ := inv.inprogHeld n h2
    have hww : ¬ w2 = w := by
      intro hww
      rw [hww, hw] at hwj
      cases hwj
    refine ⟨w2, j, ?_, hjn⟩
    simp only [Function.update_apply, if_neg hww]
    exact hwj
  · intro n r h hd
    exact rinv_passes_done inv h hd
  · exact inv.recTaken
  · exact inv.takenWhen
  · intro n h
    exact rinv_passes_pending inv h
  · exact inv.takenNeeds
  · exact inv.whenFalseList

theorem rinv_take {J : List RJob} {s : RunState} (inv : RInv J s)
    {w : Fin MAX_THREADS} {j : RJob} {rest : List RJob} {rs2 : RMap}
    (hw : s.workers w = .atLoop)
    (hc : crit s.jobs s.results = .take j rest rs2) :
    RInv J { jobs := rest, results := rs2,
             workers := Function.update s.workers w (.executing j),
             log := s.log ++ [.taken j] } := by
  obtain ⟨hpf, hrs2, -⟩ := crit_take_shape hc
  subst hrs2
  obtain ⟨l1, l2, hsplit, hrest, hpend⟩ := pickFirst_some hpf
  rw [isEqual_getReg_iff] at hpend
  have hjmem : j ∈ s.jobs := by
    rw [hsplit]
    exact List.mem_append_right _ (List.mem_cons_self _ _)
  have hjJ : j ∈ J := inv.listSub j hjmem
  have hjwhen : j.whenGuard = true := by
    by_contra hcon
    rw [passes_skipped_of_mem hjmem (Bool.eq_false_iff.mpr hcon)] at hpend
    cases hpend
  have hrestmem : ∀ k ∈ rest, k ∈ s.jobs := by
    intro k hk
    rw [hrest] at hk
    rw [hsplit]
    rcases List.mem_append.mp hk with hk | hk
    · exact List.mem_append_left _ hk
    · exact List.mem_append_right _ (List.mem_cons_of_mem _ hk)
  have hmemrest : ∀ k ∈ s.jobs, ¬ k = j → k ∈ rest := by
    intro k hk hkj
    rw [hsplit] at hk
    rw [hrest]
    rcases List.mem_append.mp hk with hk | hk
    · exact List.mem_append_left _ hk
    · rcases List.mem_cons.mp hk with hk | hk
      · exact absurd hk hkj
      · exact List.mem_append_right _ hk
  refine ⟨?_, ?_, ?_, ?_, ?_, ?_, ?_, ?_, ?_, ?_, ?_, ?_, ?_⟩
  · intro k hk
    exact inv.listSub k (hrestmem k hk)
  · intro w2 j2 hwj
    simp only [Function.update_apply] at hwj
    by_cases hww : w2 = w
    · rw [if_pos hww] at hwj
      injection hwj with hj2
      rw [← hj2]
      exact hjJ
    · rw [if_neg hww] at hwj
      exact inv.heldJobs w2 j2 hwj
  · intro w2 j2 hwj
    simp only [Function.update_apply] at hwj
    by_cases hww : w2 = w
    · rw [if_pos hww] at hwj
      injection hwj with hj2
      rw [← hj2]
      exact List.mem_append_right _ (List.mem_singleton.mpr rfl)
    · rw [if_neg hww] at hwj
      exact List.mem_append_left _ (inv.heldTaken w2 j2 hwj)
  · intro k hk
    exact lookupRes_mapInsert_isSome _ _ _ _ (passes_isSome (inv.regAll k hk))
  · intro n r h
    rw [lookupRes_mapInsert_cases] at h
    by_cases hk : j.name = n
    · rw [if_pos hk] at h
      cases h
      exact .inr (.inr (.inl rfl))
    · rw [if_neg hk] at h
      exact rinv_passes_vals inv h
  · intro n h
    rw [lookupRes_mapInsert_cases] at h
    by_cases hk : j.name = n
    · rw [if_pos hk] at h
      cases h
    · rw [if_neg hk] at h
      obtain ⟨k, hkmem, hkn⟩ := rinv_passes_pendingList inv h
      refine ⟨k, hmemrest k hkmem ?_, hkn⟩
      intro hkj
      rw [hkj] at hkn
      exact hk hkn
  · intro n h
    rw [lookupRes_mapInsert_cases] at h
    by_cases hk : j.name = n
    · rw [if_pos hk] at h
      refine ⟨w, j, ?_, hk⟩
      simp [Function.update_apply]
    · rw [if_neg hk] at h
      have h2 := rinv_passes_inprog inv h
      obtain ⟨w2, j2, hwj, hjn⟩ := inv.inprogHeld n h2
      have hww : ¬ w2 = w := by
        intro hww
        rw [hww, hw] at hwj
        cases hwj
      refine ⟨w2, j2, ?_, hjn⟩
      simp only [Function.update_apply, if_neg hww]
      exact hwj
  · intro n r h hd
    rw [lookupRes_mapInsert_cases] at h
    by_cases hk : j.name = n
    · rw [if_pos hk] at h
      cases h
      exact absurd hd (by simp [is_result_done, Status.is_done])
    · rw [if_neg hk] at h
      obtain ⟨jr, hjr, hjrn, hjrr⟩ := rinv_passes_done inv h hd
      exact ⟨jr, List.mem_append_left _ hjr, hjrn, hjrr⟩
  · intro j2 hj2
    rcases List.mem_append.mp hj2 with hj2 | hj2
    · exact List.mem_append_left _ (inv.recTaken j2 hj2)
    · exact absurd (List.mem_singleton.mp hj2) (by simp)
  · intro j2 hj2
    rcases List.mem_append.mp hj2 with hj2 | hj2
    · exact inv.takenWhen j2 hj2
    · rw [show j2 = j by injection List.mem_singleton.mp hj2]
      exact ⟨hjJ, hjwhen⟩
  · intro n h
    rw [lookupRes_mapInsert_cases] at h
    by_cases hk : j.name = n
    · rw [if_pos hk] at h
      cases h
    · rw [if_neg hk] at h
      obtain ⟨j2, hj2, hj2n, hj2d⟩ := rinv_passes_pending inv h
      refine ⟨j2, hj2, hj2n, fun b hb => ?_⟩
      obtain ⟨jr, hjr, hjrn, hjrd⟩ := hj2d b hb
      exact ⟨jr, List.mem_append_left _ hjr, hjrn, hjrd⟩
  · intro l1x jx l2x hx
    rcases append_singleton_split hx with ⟨-, hxe, hxl⟩ | ⟨l2p, -, hxl⟩
    · have hjx : jx = j := by injection hxe
      subst hjx
      subst hxl
      obtain ⟨j2, hj2, hj2n, hj2d⟩ := rinv_passes_pending inv hpend
      exact ⟨j2, hj2, hj2n, hj2d⟩
    · exact inv.takenNeeds l1x jx l2p hxl
  · intro k hk hkw
    refine hmemrest k (inv.whenFalseList k hk hkw) ?_
    intro hkj
    rw [hkj, hjwhen] at hkw
    cases hkw

theorem rinv_record {J : List RJob} {s : RunState}
    (hres : ∀ k ∈ J, is_result_settled k.result = true) (inv : RInv J s)
    {w : Fin MAX_THREADS} {j : RJob} (hw : s.workers w = .executing j) :
    RInv J { jobs := s.jobs,
             results := mapInsert s.results j.name j.result,
             workers := Function.update s.workers w .atLoop,
             log := s.log ++ [.recorded j] } := by
  have hjJ : j ∈ J := inv.heldJobs w j hw
  have hjset := hres j hjJ
  have hnotpend : ¬ j.result = .ok .pending := by
    intro he
    rw [he] at hjset
    exact absurd hjset (by simp [is_result_settled, Status.is_done])
  have hnotprog : ¬ j.result = .ok .inProgress := by
    intro he
    rw [he] at hjset
    exact absurd hjset (by simp [is_result_settled, Status.is_done])
  refine ⟨?_, ?_, ?_, ?_, ?_, ?_, ?_, ?_, ?_, ?_, ?_, ?_, ?_⟩
  · exact inv.listSub
  · intro w2 j2 hwj
    simp only [Function.update_apply] at hwj
    by_cases hww : w2 = w
    · rw [if_pos hww] at hwj
      cases hwj
    · rw [if_neg hww] at hwj
      exact inv.heldJobs w2 j2 hwj
  · intro w2 j2 hwj
    simp only [Function.update_apply] at hwj
    by_cases hww : w2 = w
    · rw [if_pos hww] at hwj
      cases hwj
    · rw [if_neg hww] at hwj
      exact List.mem_append_left _ (inv.heldTaken w2 j2 hwj)
  · intro k hk
    exact lookupRes_mapInsert_isSome _ _ _ _ (inv.regAll k hk)
  · intro n r h
    rw [lookupRes_mapInsert_cases] at h
    by_cases hk : j.name = n
    · rw [if_pos hk] at h
      cases h
      exact .inr (.inr (.inr (.inr ⟨j, hjJ, hk, rfl⟩)))
    · rw [if_neg hk] at h
      exact inv.resVals n r h
  · intro n h
    rw [lookupRes_mapInsert_cases] at h
    by_cases hk : j.name = n
    · rw [if_pos hk] at h
      injection h with h2
      exact absurd h2 hnotpend
    · rw [if_neg hk] at h
      exact inv.pendingList n h
  · intro n h
    rw [lookupRes_mapInsert_cases] at h
    by_cases hk : j.name = n
    · rw [if_pos hk] at h
      injection h with h2
      exact absurd h2 hnotprog
    · rw [if_neg hk] at h
      obtain ⟨w2, j2, hwj, hjn⟩ := inv.inprogHeld n h
      have hww : ¬ w2 = w := by
        intro hww
        rw [hww, hw] at hwj
        injection hwj with h2
        rw [← h2] at hjn
        exact hk hjn
      refine ⟨w2, j2, ?_, hjn⟩
      simp only [Function.update_apply, if_neg hww]
      exact hwj
  · intro n r h hd
    rw [lookupRes_mapInsert_cases] at h
    by_cases hk : j.name = n
    · rw [if_pos hk] at h
      cases h
      exact ⟨j, List.mem_append_right _ (List.mem_singleton.mpr rfl),
        hk, rfl⟩
    · rw [if_neg hk] at h
      obtain ⟨jr, hjr, hjrn, hjrr⟩ := inv.doneRec n r h hd
      exact ⟨jr, List.mem_append_left _ hjr, hjrn, hjrr⟩
  · intro j2 hj2
    rcases List.mem_append.mp hj2 with hj2 | hj2
    · exact List.mem_append_left _ (inv.recTaken j2 hj2)
    · have hj2j : j2 = j := by injection List.mem_singleton.mp hj2
      subst hj2j
      exact List.mem_append_left _ (inv.heldTaken w j2 hw)
  · intro j2 hj2
    rcases List.mem_append.mp hj2 with hj2 | hj2
    · exact inv.takenWhen j2 hj2
    · exact absurd (List.mem_singleton.mp hj2) (by simp)
  · intro n h
    rw [lookupRes_mapInsert_cases] at h
    by_cases hk : j.name = n
    · rw [if_pos hk] at h
      injection h with h2
      exact absurd h2 hnotpend
    · rw [if_neg hk] at h
      obtain ⟨j2, hj2, hj2n, hj2d⟩ := inv.pendingNeeds n h
      refine ⟨j2, hj2, hj2n, fun b hb => ?_⟩
      obtain ⟨jr, hjr, hjrn, hjrd⟩ := hj2d b hb
      exact ⟨jr, List.mem_append_left _ hjr, hjrn, hjrd⟩
  · intro l1x jx l2x hx
    rcases append_singleton_split hx with ⟨-, hxe, -⟩ | ⟨l2p, -, hxl⟩
    · exact absurd hxe (by simp)
    · obtain ⟨j2, hj2, hj2n, hj2d⟩ := inv.takenNeeds l1x jx l2p hxl
      exact ⟨j2, hj2, hj2n, hj2d⟩
  · exact inv.whenFalseList

/-- Every reachable state satisfies the invariant (given that every job's
execute result is settled, as is the case for this program's jobs). -/
theorem reach_rinv {jobs : List RJob} {s : RunState}
    (hres : ∀ k ∈ jobs, is_result_settled k.result = true)
    (h : Reach jobs s) : RInv jobs s := by
  induction h with
  | refl => exact rinv_init jobs
  | tail hr hstep ih =>
    cases hstep with
    | exit w rs2 hw hc => exact rinv_exit ih hw hc
    | take w j rest rs2 hw hc => exact rinv_take ih hw hc
    | record w j hw => exact rinv_record hres ih hw

/-- At the moment `run` returns (all workers exited), every job's entry
in the status map holds a settled result. -/
theorem terminal_settled {jobs : List RJob} {s : RunState}
    (hres : ∀ j ∈ jobs, is_result_settled j.result = true)
    (hreach : Reach jobs s) (hex : AllExited s) :
    ∀ j ∈ jobs, ∃ r, lookupRes s.results j.name = some r ∧
      is_result_settled r = true := by
  rcases Relation.ReflTransGen.cases_tail hreach with heq | ⟨s0, hr0, hstep⟩
  · exfalso
    have h0 := hex 0
    rw [heq] at h0
    exact absurd h0 (by simp [initState])
  · have inv0 := reach_rinv hres hr0
    cases hstep with
    | take w j rest rs2 hw hc =>
      exfalso
      have h0 := hex w
      simp only [Function.update_apply, if_pos rfl] at h0
      cases h0
    | record w j hw =>
      exfalso
      have h0 := hex w
      simp only [Function.update_apply, if_pos rfl] at h0
      cases h0
    | exit w rs2 hw hc =>
      obtain ⟨hrs2, hdisj⟩ := crit_exit_shape hc
      subst hrs2
      have hnoprog : ∀ n,
          ¬ lookupRes (passes s0.jobs s0.results) n =
            some (.ok .inProgress) := by
        intro n hn
        have h2 := rinv_passes_inprog inv0 hn
        obtain ⟨w2, j2, hwj, -⟩ := inv0.inprogHeld n h2
        by_cases hww : w2 = w
        · rw [hww, hw] at hwj
          cases hwj
        · have h3 := hex w2
          simp only [Function.update_apply, if_neg hww] at h3
          rw [h3] at hwj
          cases hwj
      have hnopend : ∀ n,
          ¬ lookupRes (passes s0.jobs s0.results) n =
            some (.ok .pending) := by
        intro n hn
        rcases hdisj with hset | hpf
        · have := allSettled_lookup hset hn
          exact absurd this (by simp [is_result_settled, Status.is_done])
        · obtain ⟨k, hkmem, hkn⟩ := rinv_passes_pendingList inv0 hn
          have h3 := pickFirst_none hpf k hkmem
          rw [hkn] at h3
          rw [show lookupRes (passes s0.jobs s0.results) n =
              some (.ok .pending) ↔
              isEqualStatus (getReg (passes s0.jobs s0.results) n)
                .pending = true from isEqual_getReg_iff.symm] at hn
          rw [hn] at h3
          cases h3
      intro j hj
      have hsome : (lookupRes (passes s0.jobs s0.results) j.name).isSome :=
        passes_isSome (inv0.regAll j hj)
      obtain ⟨r, hr⟩ := Option.isSome_iff_exists.mp hsome
      refine ⟨r, hr, ?_⟩
      rcases rinv_passes_vals inv0 hr with h1 | h1 | h1 | h1 | ⟨k, hk, -, hkr⟩
      · subst h1
        exact absurd hr (hnopend j.name)
      · subst h1
        rfl
      · subst h1
        exact absurd hr (hnoprog j.name)
      · subst h1
        rfl
      · rw [hkr]
        exact hres k hk

/-! ### The panic-aware scheduler

The model above is total: `getReg` reads a default where a
`HashMap::get(..).unwrap()` of the source would panic.  The definitions
below re-model the critical section keeping each failing lookup as a
panic of the worker that performed it (`runner.rs:63`, `runner.rs:67`
and `runner.rs:83`), following the source's evaluation order: `&&` and
`Iterator::all` short-circuit, so the needs of a list job are only
looked up while its own entry is Blocked, left to right until the first
need that is not done.  `critP jobs rs = none` means the critical
section panics; a panicked worker never exits, the `join().expect(..)`
at the bottom of `run` then propagates the panic, and `run` never
returns.  `critP_eq` proves the panic-aware and the total critical
section agree whenever every name the section can look up is registered
in the map. -/

/-- The phase of one worker thread in the panic-aware model: as in
`WorkerPhase`, plus the worker that hit a failing `unwrap`. -/
inductive PPhase where
  | atLoop : PPhase
  | executing (j : RJob) : PPhase
  | exited : PPhase
  | panicked : PPhase
deriving DecidableEq, Repr

/-- `job.needs().iter().all(|n| is_result_done(my_results.get(n).unwrap()))`
(runner.rs:64-67): left to right, stopping at the first need that is not
done; `none` is the panic of the `unwrap` on a need with no entry. -/
def needsDoneP (rs : RMap) : List String → Option Bool
  | [] => some true
  | n :: rest =>
    match lookupRes rs n with
    | none => none
    | some r =>
      match is_result_done r with
      | true => needsDoneP rs rest
      | false => some false

/-- The unblock pass with panics: for each list job, its own entry is
looked up (`my_results.get(&name).unwrap()`, runner.rs:63); only when it
is Blocked are the needs looked up, and the job moves to Pending when
they are all done. -/
def unblockPassP : List RJob → RMap → Option RMap
  | [], rs => some rs
  | j :: rest, rs =>
    match lookupRes rs j.name with
    | none => none
    | some rj =>
      match isEqualStatus rj .blocked with
      | false => unblockPassP rest rs
      | true =>
        match needsDoneP rs j.needs with
        | none => none
        | some false => unblockPassP rest rs
        | some true =>
          unblockPassP rest (mapInsert rs j.name (.ok .pending))

/-- The find of the first Pending job with panics: each candidate's
entry is looked up in turn (`my_results.get(&name).unwrap()`,
runner.rs:83) until the first Pending one; `some none` means no Pending
job was found. -/
def pickFirstP (rs : RMap) : List RJob → Option (Option (RJob × List RJob))
  | [] => some none
  | j :: rest =>
    match lookupRes rs j.name with
    | none => none
    | some rj =>
      match isEqualStatus rj .pending with
      | true => some (some (j, rest))
      | false =>
        match pickFirstP rs rest with
        | none => none
        | some none => some none
        | some (some (x, rest2)) => some (some (x, j :: rest2))

/-- One critical section of the worker loop, with panics: skip pass (no
lookups), unblock pass, the `is_all_settled` exit check, then the
pick-and-remove of the first Pending job; `none` is a worker panic at a
failing `unwrap`. -/
def critP (jobs : List RJob) (rs : RMap) : Option CritOut :=
  match unblockPassP jobs (skipPass jobs rs) with
  | none => none
  | some r2 =>
    match allSettled r2 with
    | true => some (.exit r2)
    | false =>
      match pickFirstP r2 jobs with
      | none => none
      | some none => some (.exit r2)
      | some (some (j, rest)) =>
        some (.take j rest (mapInsert r2 j.name (.ok .inProgress)))

/-- The shared state of `run` in the panic-aware model. -/
structure PState where
  jobs : List RJob
  results : RMap
  workers : Fin MAX_THREADS → PPhase
  log : List REvent

/-- The state of `run` just after seeding, before any worker moves. -/
def initP (jobs : List RJob) : PState :=
  { jobs := jobs, results := seedResults jobs [],
    workers := fun _ => .atLoop, log := [] }

/-- One step of the interleaved panic-aware execution: as `Step`, plus a
worker whose critical section hits a failing `unwrap` moves to
`panicked` and never steps again (the poisoned locks and the panicking
`join` are represented by the absence of further transitions). -/
inductive StepP : PState → PState → Prop where
  | exit (s : PState) (w : Fin MAX_THREADS) (rs2 : RMap)
      (hw : s.workers w = .atLoop)
      (hc : critP s.jobs s.results = some (.exit rs2)) :
      StepP s { jobs := s.jobs, results := rs2,
                workers := Function.update s.workers w .exited,
                log := s.log }
  | take (s : PState) (w : Fin MAX_THREADS) (j : RJob)
      (rest : List RJob) (rs2 : RMap)
      (hw : s.workers w = .atLoop)
      (hc : critP s.jobs s.results = some (.take j rest rs2)) :
      StepP s { jobs := rest, results := rs2,
                workers := Function.update s.workers w (.executing j),
                log := s.log ++ [.taken j] }
  | record (s : PState) (w : Fin MAX_THREADS) (j : RJob)
      (hw : s.workers w = .executing j) :
      StepP s { jobs := s.jobs,
                results := mapInsert s.results j.name j.result,
                workers := Function.update s.workers w .atLoop,
                log := s.log ++ [.recorded j] }
  | panic (s : PState) (w : Fin MAX_THREADS)
      (hw : s.workers w = .atLoop)
      (hc : critP s.jobs s.results = none) :
      StepP s { jobs := s.jobs, results := s.results,
                workers := Function.update s.workers w .panicked,
                log := s.log }

/-- The states reachable by `run(jobs)` in the panic-aware model. -/
def ReachP (jobs : List RJob) (s : PState) : Prop :=
  Relation.ReflTransGen StepP (initP jobs) s

/-- `run` has returned: every worker has exited (so `join` succeeded). -/
def AllExitedP (s : PState) : Prop :=
  ∀ w, s.workers w = .exited

/-! #### Termination of the panic-aware scheduler -/

/-- The weight of a worker phase for the termination measure. -/
def pPhaseWeight : PPhase → Nat
  | .atLoop => 1
  | .executing _ => 2
  | .exited => 0
  | .panicked => 0

/-- The termination measure: every step strictly decreases it. -/
def pMeasure (s : PState) : Nat :=
  3 * s.jobs.length + pPhaseWeight (s.workers 0) + pPhaseWeight (s.workers 1)

theorem pickFirstP_split {rs : RMap} (l : List RJob) :
    ∀ {j : RJob} {rest : List RJob},
      pickFirstP rs l = some (some (j, rest)) →
      ∃ l1 l2, l = l1 ++ j :: l2 ∧ rest = l1 ++ l2 := by
  induction l with
  | nil =>
    intro j rest h
    exact absurd h (by simp [pickFirstP])
  | cons k tail ih =>
    intro j rest h
    unfold pickFirstP at h
    split at h
    · exact absurd h (by simp)
    · split at h
      · simp only [Option.some.injEq, Prod.mk.injEq] at h
        obtain ⟨h1, h2⟩ := h
        subst h1
        subst h2
        exact ⟨[], tail, rfl, rfl⟩
      · split at h
        · exact absurd h (by simp)
        · exact absurd h (by simp)
        · rename_i x rest2 hpf
          simp only [Option.some.injEq, Prod.mk.injEq] at h
          obtain ⟨h1, h2⟩ := h
          subst h1
          obtain ⟨l1, l2, he1, he2⟩ := ih hpf
          exact ⟨k :: l1, l2, by rw [he1]; rfl, by rw [← h2, he2]; rfl⟩

theorem critP_take_shape {jobs : List RJob} {rs rs2 : RMap} {j : RJob}
    {rest : List RJob}
    (h : critP jobs rs = some (.take j rest rs2)) :
    ∃ r2, unblockPassP jobs (skipPass jobs rs) = some r2 ∧
      pickFirstP r2 jobs = some (some (j, rest)) := by
  unfold critP at h
  split at h
  · exact absurd h (by simp)
  · rename_i r2 hu
    split at h
    · exact absurd h (by simp)
    · split at h
      · exact absurd h (by simp)
      · exact absurd h (by simp)
      · rename_i x rest2 hpf
        simp only [Option.some.injEq, CritOut.take.injEq] at h
        obtain ⟨h1, h2, -⟩ := h
        subst h1
        subst h2
        exact ⟨r2, hu, hpf⟩

theorem stepP_measure {s s2 : PState} (h : StepP s s2) :
    pMeasure s2 < pMeasure s := by
  cases h with
  | exit w rs2 hw hc =>
    unfold pMeasure
    fin_cases w <;> simp_all [Function.update_apply, pPhaseWeight]
  | take w j rest rs2 hw hc =>
    obtain ⟨r2, hu, hpf⟩ := critP_take_shape hc
    obtain ⟨l1, l2, he1, he2⟩ := pickFirstP_split s.jobs hpf
    unfold pMeasure
    rw [he1, he2]
    fin_cases w <;>
      simp_all [Function.update_apply, pPhaseWeight, List.length_append] <;>
      omega
  | record w j hw =>
    unfold pMeasure
    fin_cases w <;> simp_all [Function.update_apply, pPhaseWeight]
  | panic w hw hc =>
    unfold pMeasure
    fin_cases w <;> simp_all [Function.update_apply, pPhaseWeight]

theorem no_infinite_runP (f : ℕ → PState)
    (hstep : ∀ n, StepP (f n) (f (n + 1))) : False := by
  have hdec : ∀ n, pMeasure (f (n + 1)) < pMeasure (f n) :=
    fun n => stepP_measure (hstep n)
  have hle : ∀ n, pMeasure (f n) + n ≤ pMeasure (f 0) := by
    intro n
    induction n with
    | zero => omega
    | succ k ih =>
      have := hdec k
      omega
  have := hle (pMeasure (f 0) + 1)
  omega

/-! #### Agreement with the total model on registered lookups -/

theorem needsDoneP_eq {rs : RMap} (l : List String) :
    (∀ n ∈ l, (lookupRes rs n).isSome = true) →
    needsDoneP rs l =
      some (l.all fun n => is_result_done (getReg rs n)) := by
  induction l with
  | nil => intro _; rfl
  | cons n rest ih =>
    intro hreg
    obtain ⟨r, hr⟩ := Option.isSome_iff_exists.mp (hreg n (by simp))
    have hget : getReg rs n = r := by unfold getReg; rw [hr]; rfl
    have ih2 := ih (fun m hm => hreg m (List.mem_cons_of_mem n hm))
    by_cases hd : is_result_done r = true
    · simp only [needsDoneP, hr, hd, ih2, List.all_cons, hget,
        Bool.true_and]
    · have hd2 : is_result_done r = false := Bool.eq_false_iff.mpr hd
      simp only [needsDoneP, hr, hd2, List.all_cons, hget, Bool.false_and]

theorem unblockPassP_eq (l : List RJob) :
    ∀ rs : RMap,
      (∀ j ∈ l, (lookupRes rs j.name).isSome = true) →
      (∀ j ∈ l, ∀ n ∈ j.needs, (lookupRes rs n).isSome = true) →
      unblockPassP l rs = some (unblockPass l rs) := by
  induction l with
  | nil => intro rs _ _; rfl
  | cons j rest ih =>
    intro rs hreg hregN
    obtain ⟨rj, hrj⟩ := Option.isSome_iff_exists.mp (hreg j (by simp))
    have hget : getReg rs j.name = rj := by unfold getReg; rw [hrj]; rfl
    have hD := needsDoneP_eq j.needs (hregN j (by simp))
    by_cases hb : isEqualStatus rj .blocked = true
    · cases hall : j.needs.all fun n => is_result_done (getReg rs n) with
      | true =>
        rw [hall] at hD
        have hcond : (isEqualStatus (getReg rs j.name) .blocked &&
            j.needs.all fun n => is_result_done (getReg rs n)) = true := by
          rw [hget, hb, hall]
          rfl
        simp only [unblockPassP, hrj, hb, hD]
        unfold unblockPass
        rw [if_pos hcond]
        exact ih _
          (fun k hk => lookupRes_mapInsert_isSome _ _ _ _
            (hreg k (List.mem_cons_of_mem j hk)))
          (fun k hk n hn => lookupRes_mapInsert_isSome _ _ _ _
            (hregN k (List.mem_cons_of_mem j hk) n hn))
      | false =>
        rw [hall] at hD
        have hcond : ¬ ((isEqualStatus (getReg rs j.name) .blocked &&
            j.needs.all fun n => is_result_done (getReg rs n)) = true) := by
          rw [hget, hb, hall]
          simp
        simp only [unblockPassP, hrj, hb, hD]
        unfold unblockPass
        rw [if_neg hcond]
        exact ih _ (fun k hk => hreg k (List.mem_cons_of_mem j hk))
          (fun k hk => hregN k (List.mem_cons_of_mem j hk))
    · have hb2 : isEqualStatus rj .blocked = false := Bool.eq_false_iff.mpr hb
      have hcond : ¬ ((isEqualStatus (getReg rs j.name) .blocked &&
          j.needs.all fun n => is_result_done (getReg rs n)) = true) := by
        rw [hget, hb2]
        simp
      simp only [unblockPassP, hrj, hb2]
      unfold unblockPass
      rw [if_neg hcond]
      exact ih _ (fun k hk => hreg k (List.mem_cons_of_mem j hk))
        (fun k hk => hregN k (List.mem_cons_of_mem j hk))

theorem pickFirstP_eq {rs : RMap} (l : List RJob) :
    (∀ j ∈ l, (lookupRes rs j.name).isSome = true) →
    pickFirstP rs l = some (pickFirst rs l) := by
  induction l with
  | nil => intro _; rfl
  | cons j rest ih =>
    intro hreg
    obtain ⟨rj, hrj⟩ := Option.isSome_iff_exists.mp (hreg j (by simp))
    have hget : getReg rs j.name = rj := by unfold getReg; rw [hrj]; rfl
    have ih2 := ih (fun k hk => hreg k (List.mem_cons_of_mem j hk))
    by_cases hp : isEqualStatus rj .pending = true
    · simp [pickFirstP, pickFirst, hrj, hget, hp]
    · have hp2 : isEqualStatus rj .pending = false := Bool.eq_false_iff.mpr hp
      cases hpf : pickFirst rs rest with
      | none => simp [pickFirstP, pickFirst, hrj, hget, hp2, ih2, hpf]
      | some pr =>
        obtain ⟨x, rest2⟩ := pr
        simp [pickFirstP, pickFirst, hrj, hget, hp2, ih2, hpf]

theorem critP_eq {ljobs : List RJob} {rs : RMap}
    (hreg : ∀ j ∈ ljobs, (lookupRes rs j.name).isSome = true)
    (hregN : ∀ j ∈ ljobs, ∀ n ∈ j.needs, (lookupRes rs n).isSome = true) :
    critP ljobs rs = some (crit ljobs rs) := by
  have hreg1 : ∀ j ∈ ljobs,
      (lookupRes (skipPass ljobs rs) j.name).isSome = true :=
    fun j hj => skipPass_isSome ljobs rs (hreg j hj)
  have hregN1 : ∀ j ∈ ljobs, ∀ n ∈ j.needs,
      (lookupRes (skipPass ljobs rs) n).isSome = true :=
    fun j hj n hn => skipPass_isSome ljobs rs (hregN j hj n hn)
  have hu := unblockPassP_eq ljobs (skipPass ljobs rs) hreg1 hregN1
  have hregU : ∀ j ∈ ljobs,
      (lookupRes (unblockPass ljobs (skipPass ljobs rs)) j.name).isSome
        = true :=
    fun j hj => unblockPass_isSome _ _ (hreg1 j hj)
  have hpk := pickFirstP_eq ljobs hregU
  unfold critP crit passes
  simp only [hu, hpk]
  cases hset : allSettled (unblockPass ljobs (skipPass ljobs rs)) with
  | true => simp
  | false =>
    cases hpf : pickFirst (unblockPass ljobs (skipPass ljobs rs)) ljobs with
    | none => simp
    | some pr =>
      obtain ⟨j, rest⟩ := pr
      simp

/-- Every name a job's `needs` lists names a job of the list (no
dangling needs): the spec's invariant on the configurations the
scheduler receives. -/
def needsClosed (jobs : List RJob) : Prop :=
  ∀ j ∈ jobs, ∀ n ∈ j.needs, ∃ k ∈ jobs, k.name = n

/-- On an invariant state of a closed-needs job list, the panic-aware
critical section agrees with the total one: every entry it can look up
is registered (seeded at initialization and never removed). -/
theorem rinv_critP {J : List RJob} {s : RunState} (inv : RInv J s)
    (hclosed : needsClosed J) :
    critP s.jobs s.results = some (crit s.jobs s.results) := by
  apply critP_eq
  · intro j hj
    exact inv.regAll j (inv.listSub j hj)
  · intro j hj n hn
    obtain ⟨k, hk, hkn⟩ := hclosed j (inv.listSub j hj) n hn
    rw [← hkn]
    exact inv.regAll k hk

/-- The embedding of a panic-free worker phase. -/
def embedPhase : WorkerPhase → PPhase
  | .atLoop => .atLoop
  | .executing j => .executing j
  | .exited => .exited

/-- The embedding of a total-model state into the panic-aware model. -/
def embedState (s : RunState) : PState :=
  { jobs := s.jobs, results := s.results,
    workers := fun w => embedPhase (s.workers w), log := s.log }

theorem embedPhase_atLoop {ph : WorkerPhase}
    (h : embedPhase ph = .atLoop) : ph = .atLoop := by
  cases ph <;> simp_all [embedPhase]

theorem embedPhase_executing {ph : WorkerPhase} {j : RJob}
    (h : embedPhase ph = .executing j) : ph = .executing j := by
  cases ph <;> simp_all [embedPhase]

theorem embedPhase_exited {ph : WorkerPhase}
    (h : embedPhase ph = .exited) : ph = .exited := by
  cases ph <;> simp_all [embedPhase]

theorem embedPhase_ne_panicked (ph : WorkerPhase) :
    ¬ embedPhase ph = .panicked := by
  cases ph <;> simp [embedPhase]

/-- On a closed-needs job list, every panic-aware reachable state is the
embedding of a total-model reachable state: the panic transition is
never enabled, because every lookup of the critical section is
registered. -/
theorem reachP_embed {jobs : List RJob}
    (hres : ∀ k ∈ jobs, is_result_settled k.result = true)
    (hclosed : needsClosed jobs) {s2 : PState} (h : ReachP jobs s2) :
    ∃ s, Reach jobs s ∧ s2 = embedState s := by
  induction h with
  | refl => exact ⟨initState jobs, Relation.ReflTransGen.refl, rfl⟩
  | tail hr hstep ih =>
    obtain ⟨s0, hr0, heq⟩ := ih
    subst heq
    have inv := reach_rinv hres hr0
    have hcp := rinv_critP inv hclosed
    cases hstep with
    | exit w rs2 hw hc =>
      simp only [embedState] at hw hc
      rw [hcp] at hc
      injection hc with hc
      refine ⟨_, Relation.ReflTransGen.tail hr0
        (Step.exit s0 w rs2 (embedPhase_atLoop hw) hc), ?_⟩
      simp only [embedState]
      congr 1
      funext w2
      by_cases hww : w2 = w
      · subst hww
        simp [Function.update_apply, embedPhase]
      · simp [Function.update_apply, hww]
    | take w j rest rs2 hw hc =>
      simp only [embedState] at hw hc
      rw [hcp] at hc
      injection hc with hc
      refine ⟨_, Relation.ReflTransGen.tail hr0
        (Step.take s0 w j rest rs2 (embedPhase_atLoop hw) hc), ?_⟩
      simp only [embedState]
      congr 1
      funext w2
      by_cases hww : w2 = w
      · subst hww
        simp [Function.update_apply, embedPhase]
      · simp [Function.update_apply, hww]
    | record w j hw =>
      simp only [embedState] at hw
      refine ⟨_, Relation.ReflTransGen.tail hr0
        (Step.record s0 w j (embedPhase_executing hw)), ?_⟩
      simp only [embedState]
      congr 1
      funext w2
      by_cases hww : w2 = w
      · subst hww
        simp [Function.update_apply, embedPhase]
      · simp [Function.update_apply, hww]
    | panic w hw hc =>
      simp only [embedState] at hc
      rw [hcp] at hc
      exact absurd hc (by simp)

/-- A job whose single need names no job of its list: the seeded map has
no `"ghost"` entry, so the first unblock pass's needs lookup fails. -/
def djA : RJob := ⟨"a", ["ghost"], true, .ok .done⟩

/-- The state after either worker's first critical section on `[djA]`:
the worker has panicked at the failing `unwrap`. -/
def dS1 : PState :=
  ⟨[djA], seedResults [djA] [],
    Function.update (fun _ => .atLoop) 0 .panicked, []⟩

/-- Every state `run [djA]` reaches keeps the initial list and map, and
each worker is at its loop top or panicked: the only step either worker
can ever take is the panic. -/
theorem dangling_reach_shape {s : PState} (h : ReachP [djA] s) :
    s.jobs = [djA] ∧ s.results = seedResults [djA] [] ∧
      ∀ w, s.workers w = .atLoop ∨ s.workers w = .panicked := by
  induction h with
  | refl => exact ⟨rfl, rfl, fun _ => Or.inl rfl⟩
  | tail hr hstep ih =>
    obtain ⟨hj, hres, hph⟩ := ih
    have hcn : critP [djA] (seedResults [djA] []) = none := by decide
    cases hstep with
    | exit w rs2 hw hc =>
      rw [hj, hres, hcn] at hc
      cases hc
    | take w j rest rs2 hw hc =>
      rw [hj, hres, hcn] at hc
      cases hc
    | record w j hw =>
      rcases hph w with h1 | h1 <;> rw [h1] at hw <;> cases hw
    | panic w hw hc =>
      refine ⟨hj, hres, ?_⟩
      intro w2
      by_cases hww : w2 = w
      · subst hww
        exact Or.inr (by simp [Function.update_apply])
      · rcases hph w2 with h1 | h1
        · exact Or.inl (by simp [Function.update_apply, hww, h1])
        · exact Or.inr (by simp [Function.update_apply, hww, h1])

/-- C1 counterexample: the claim says `run` returns for every input job
list.  On the one-job list `[djA]`, whose single need `"ghost"` names no
job — a list the parser delivers to the scheduler, per C9 — the seeded
map has no `"ghost"` entry, so the first critical section of either
worker reaches `my_results.get(n).unwrap()` (runner.rs:67) on a missing
entry and panics (`critP = none` and the panic step from the initial
state); a panicked worker never exits, the `join` propagates the panic,
and no reachable state of the run has every worker exited — `run [djA]`
never returns, and its entries never settle. -/
theorem run_totality_counterexample :
    critP [djA] (initP [djA]).results = none ∧
    StepP (initP [djA]) dS1 ∧
    ∀ s, ReachP [djA] s → ¬ AllExitedP s := by
  refine ⟨by decide, StepP.panic (initP [djA]) 0 rfl (by decide), ?_⟩
  intro s hs hex
  rcases (dangling_reach_shape hs).2.2 0 with h1 | h1 <;>
    rw [hex 0] at h1 <;> cases h1

/-- C1 (amended).  For every input job list whose needs all name jobs of
the list and whose jobs produce settled execute results (as every job of
this program does): every interleaved panic-aware execution of the two
workers is finite; no worker of a reachable state has panicked, and a
reachable state in which not every worker has exited always has a next
step; and when `run` returns (all workers exited and joined) every job's
entry in the status map holds a result of which `is_result_settled` is
true. -/
theorem run_totality_amended (jobs : List RJob)
    (hres : ∀ j ∈ jobs, is_result_settled j.result = true)
    (hclosed : needsClosed jobs) :
    (∀ f : ℕ → PState, f 0 = initP jobs →
      (∀ n, StepP (f n) (f (n + 1))) → False) ∧
    (∀ s, ReachP jobs s → (∀ w, ¬ s.workers w = .panicked) ∧
      (¬ AllExitedP s → ∃ s2, StepP s s2)) ∧
    (∀ s, ReachP jobs s → AllExitedP s → ∀ j ∈ jobs, ∃ r,
      lookupRes s.results j.name = some r ∧ is_result_settled r = true) := by
  refine ⟨?_, ?_, ?_⟩
  · intro f h0 hstep
    exact no_infinite_runP f hstep
  · intro s2 hr2
    obtain ⟨s, hr, heq⟩ := reachP_embed hres hclosed hr2
    subst heq
    have inv := reach_rinv hres hr
    have hcp := rinv_critP inv hclosed
    constructor
    · intro w
      simp only [embedState]
      exact embedPhase_ne_panicked _
    · intro hnex
      unfold AllExitedP at hnex
      push_neg at hnex
      obtain ⟨w, hw⟩ := hnex
      cases hph : s.workers w with
      | atLoop =>
        cases hc : crit s.jobs s.results with
        | exit rs2 =>
          refine ⟨_, StepP.exit (embedState s) w rs2 ?_ ?_⟩
          · simp only [embedState, hph, embedPhase]
          · simp only [embedState]
            rw [hcp, hc]
        | take j rest rs2 =>
          refine ⟨_, StepP.take (embedState s) w j rest rs2 ?_ ?_⟩
          · simp only [embedState, hph, embedPhase]
          · simp only [embedState]
            rw [hcp, hc]
      | executing j =>
        refine ⟨_, StepP.record (embedState s) w j ?_⟩
        simp only [embedState, hph, embedPhase]
      | exited =>
        exfalso
        apply hw
        simp only [embedState, hph, embedPhase]
  · intro s2 hr2 hex
    obtain ⟨s, hr, heq⟩ := reachP_embed hres hclosed hr2
    subst heq
    have hexR : AllExited s := fun w => embedPhase_exited (hex w)
    intro j hj
    obtain ⟨r, h1, h2⟩ := terminal_settled hres hr hexR j hj
    exact ⟨r, h1, h2⟩

/-- A one-job list used by the concrete witness run. -/
def jobA : RJob := ⟨"a", [], true, .ok .done⟩

def pwW1 : Fin MAX_THREADS → PPhase :=
  Function.update (fun _ => .atLoop) 0 (.executing jobA)

def pwW2 : Fin MAX_THREADS → PPhase :=
  Function.update pwW1 0 .atLoop

def pwW3 : Fin MAX_THREADS → PPhase :=
  Function.update pwW2 0 .exited

def pwW4 : Fin MAX_THREADS → PPhase :=
  Function.update pwW3 1 .exited

def pwS1 : PState :=
  ⟨[], [("a", .ok .inProgress)], pwW1, [.taken jobA]⟩

def pwS2 : PState :=
  ⟨[], [("a", .ok .done)], pwW2, [.taken jobA, .recorded jobA]⟩

def pwS3 : PState :=
  ⟨[], [("a", .ok .done)], pwW3, [.taken jobA, .recorded jobA]⟩

def pwS4 : PState :=
  ⟨[], [("a", .ok .done)], pwW4, [.taken jobA, .recorded jobA]⟩

/-- The complete concrete panic-aware run of `[jobA]`: worker 0 takes
the job, records `Done`, then both workers exit. -/
theorem pwitness_chain : ReachP [jobA] pwS4 := by
  have st1 : StepP (initP [jobA]) pwS1 :=
    StepP.take (initP [jobA]) 0 jobA [] [("a", .ok .inProgress)]
      rfl (by decide)
  have st2 : StepP pwS1 pwS2 := StepP.record pwS1 0 jobA (by decide)
  have st3 : StepP pwS2 pwS3 :=
    StepP.exit pwS2 0 [("a", .ok .done)] (by decide) (by decide)
  have st4 : StepP pwS3 pwS4 :=
    StepP.exit pwS3 1 [("a", .ok .done)] (by decide) (by decide)
  exact Relation.ReflTransGen.tail
    (Relation.ReflTransGen.tail
      (Relation.ReflTransGen.tail
        (Relation.ReflTransGen.tail Relation.ReflTransGen.refl st1) st2)
      st3) st4

/-- Witness for `run_totality_amended`: the concrete run of the one-job
list reaches an all-exited state whose only entry is settled. -/
theorem run_totality_amended_witness :
    ∃ r, lookupRes pwS4.results "a" = some r ∧
      is_result_settled r = true :=
  (run_totality_amended [jobA] (by decide)
      (by
        intro j hj n hn
        rw [List.mem_singleton] at hj
        subst hj
        simp [jobA] at hn)).2.2
    pwS4 pwitness_chain (by intro w; fin_cases w <;> decide) jobA (by decide)

theorem nodup_name_inj {J : List RJob} (h : (J.map RJob.name).Nodup)
    {a b : RJob} (ha : a ∈ J) (hb : b ∈ J) (hn : a.name = b.name) :
    a = b :=
  List.inj_on_of_nodup_map h ha hb hn

/-- A terminal state is the outcome of an exit step: its status map is
the two passes applied to some reachable predecessor, which was either
all-settled or without a pending job in its list. -/
theorem terminal_results {jobs : List RJob} {s : RunState}
    (hreach : Reach jobs s) (hex : AllExited s) :
    ∃ s0, Reach jobs s0 ∧ s.jobs = s0.jobs ∧ s.log = s0.log ∧
      s.results = passes s0.jobs s0.results ∧
      (allSettled (passes s0.jobs s0.results) = true ∨
        pickFirst (passes s0.jobs s0.results) s0.jobs = none) := by
  rcases Relation.ReflTransGen.cases_tail hreach with heq | ⟨s0, hr0, hstep⟩
  · exfalso
    have h0 := hex 0
    rw [heq] at h0
    exact absurd h0 (by simp [initState])
  · cases hstep with
    | take w j rest rs2 hw hc =>
      exfalso
      have h0 := hex w
      simp only [Function.update_apply, if_pos rfl] at h0
      cases h0
    | record w j hw =>
      exfalso
      have h0 := hex w
      simp only [Function.update_apply, if_pos rfl] at h0
      cases h0
    | exit w rs2 hw hc =>
      obtain ⟨hrs2, hdisj⟩ := crit_exit_shape hc
      exact ⟨s0, hr0, rfl, rfl, hrs2, hdisj⟩

/-- C5.  For a job `A` whose `when()` guard is false: `A`'s `execute()`
is never invoked; `A`'s entry is the terminal `Skipped` whenever `run`
has returned; and no job transitively needing `A` is ever executed. -/
theorem when_false_skips (jobs : List RJob) (A : RJob)
    (hres : ∀ j ∈ jobs, is_result_settled j.result = true)
    (hnodup : (jobs.map RJob.name).Nodup)
    (hA : A ∈ jobs) (hw : A.whenGuard = false) :
    (∀ s, Reach jobs s → REvent.taken A ∉ s.log) ∧
    (∀ s, Reach jobs s → AllExited s →
      lookupRes s.results A.name = some (.ok .skipped)) ∧
    (∀ s, Reach jobs s → ∀ D ∈ jobs,
      Relation.TransGen (needsRel jobs) D.name A.name →
        REvent.taken D ∉ s.log) := by
  have part1 : ∀ s, Reach jobs s → REvent.taken A ∉ s.log := by
    intro s hr ht
    have hwt := ((reach_rinv hres hr).takenWhen A ht).2
    rw [hw] at hwt
    cases hwt
  refine ⟨part1, ?_, ?_⟩
  · intro s hr hex
    obtain ⟨s0, hr0, -, -, hres2, -⟩ := terminal_results hr hex
    rw [hres2]
    exact passes_skipped_of_mem
      ((reach_rinv hres hr0).whenFalseList A hA hw) hw
  · intro s hr D hD htg
    have inv := reach_rinv hres hr
    have key : ∀ n, Relation.TransGen (needsRel jobs) n A.name →
        ∀ D2 ∈ jobs, D2.name = n → REvent.taken D2 ∉ s.log := by
      intro n htg2
      induction htg2 using Relation.TransGen.head_induction_on with
      | base hrel =>
        intro D2 hD2 hD2n ht2
        obtain ⟨jx, hjx, hjxn, hjxneed⟩ := hrel
        obtain ⟨l1, l2, hsplit⟩ := List.append_of_mem ht2
        obtain ⟨j2, hj2, hj2n, hj2d⟩ := inv.takenNeeds l1 D2 l2 hsplit
        have hj2x : j2 = jx :=
          nodup_name_inj hnodup hj2 hjx (by rw [hj2n, hD2n, hjxn])
        obtain ⟨jr, hjr, hjrn, hjrd⟩ :=
          hj2d A.name (by rw [hj2x]; exact hjxneed)
        have hjrlog : REvent.recorded jr ∈ s.log := by
          rw [hsplit]
          exact List.mem_append_left _ hjr
        have hjrt := inv.recTaken jr hjrlog
        have hjrA : jr = A :=
          nodup_name_inj hnodup (inv.takenWhen jr hjrt).1 hA hjrn
        rw [hjrA] at hjrt
        exact part1 s hr hjrt
      | ih hrel htg3 ih =>
        intro D2 hD2 hD2n ht2
        obtain ⟨jx, hjx, hjxn, hjxneed⟩ := hrel
        obtain ⟨l1, l2, hsplit⟩ := List.append_of_mem ht2
        obtain ⟨j2, hj2, hj2n, hj2d⟩ := inv.takenNeeds l1 D2 l2 hsplit
        have hj2x : j2 = jx :=
          nodup_name_inj hnodup hj2 hjx (by rw [hj2n, hD2n, hjxn])
        obtain ⟨jr, hjr, hjrn, hjrd⟩ := hj2d _ (by rw [hj2x]; exact hjxneed)
        have hjrlog : REvent.recorded jr ∈ s.log := by
          rw [hsplit]
          exact List.mem_append_left _ hjr
        have hjrt := inv.recTaken jr hjrlog
        exact ih jr (inv.takenWhen jr hjrt).1 hjrn hjrt
    exact key D.name htg D hD rfl

/-- The when-false job of the concrete skip run. -/
def kjA : RJob := ⟨"a", [], false, .ok .done⟩

def kW1 : Fin MAX_THREADS → WorkerPhase :=
  Function.update (fun _ => .atLoop) 0 .exited

def kW2 : Fin MAX_THREADS → WorkerPhase :=
  Function.update kW1 1 .exited

def kS1 : RunState := ⟨[kjA], [("a", .ok .skipped)], kW1, []⟩

def kS2 : RunState := ⟨[kjA], [("a", .ok .skipped)], kW2, []⟩

/-- The complete run of the single when-false job: each worker's first
critical section marks it Skipped, finds everything settled, and
exits. -/
theorem skip_chain : Reach [kjA] kS2 := by
  have st1 : Step (initState [kjA]) kS1 :=
    Step.exit (initState [kjA]) 0 [("a", .ok .skipped)] rfl (by decide)
  have st2 : Step kS1 kS2 :=
    Step.exit kS1 1 [("a", .ok .skipped)] (by decide) (by decide)
  exact Relation.ReflTransGen.tail
    (Relation.ReflTransGen.tail Relation.ReflTransGen.refl st1) st2

/-- Witness for `when_false_skips`: the concrete run of the single
when-false job terminates with its entry Skipped. -/
theorem when_false_skips_witness :
    lookupRes kS2.results kjA.name = some (.ok .skipped) :=
  (when_false_skips [kjA] kjA (by decide) (by decide) (by decide)
      (by decide)).2.1
    kS2 skip_chain (by intro w; fin_cases w <;> decide)

/-- If `B`'s execute result is an error, or `B`'s guard is false, then no
status-map entry for `B.name` is ever done. -/
theorem bdead_not_done {jobs : List RJob} {s : RunState} (inv : RInv jobs s)
    (hnodup : (jobs.map RJob.name).Nodup) {B : RJob} (hB : B ∈ jobs)
    (hBdead : (∃ e, B.result = .error e) ∨ B.whenGuard = false) :
    is_result_done (getReg s.results B.name) = false := by
  by_contra hcon
  rw [Bool.not_eq_false, getReg_done_iff] at hcon
  obtain ⟨rb, hrb, hrbd⟩ := hcon
  obtain ⟨jr, hjr, hjrn, hjrr⟩ := inv.doneRec _ _ hrb hrbd
  have hjrt := inv.recTaken jr hjr
  have hjrB : jr = B :=
    nodup_name_inj hnodup (inv.takenWhen jr hjrt).1 hB hjrn
  rcases hBdead with ⟨e, he⟩ | hwf
  · rw [hjrB, he] at hjrr
    rw [← hjrr] at hrbd
    exact absurd hrbd (by simp [is_result_done])
  · have h2 := (inv.takenWhen jr hjrt).2
    rw [hjrB, hwf] at h2
    cases h2

/-- Whenever `A` is taken, a done record for `B` (`B ∈ A.needs`) precedes
it in the log. -/
theorem taken_means_done_need {jobs : List RJob} {A B : RJob}
    (hres : ∀ j ∈ jobs, is_result_settled j.result = true)
    (hnodup : (jobs.map RJob.name).Nodup)
    (hA : A ∈ jobs) (hB : B ∈ jobs) (hneed : B.name ∈ A.needs)
    {s : RunState} (hr : Reach jobs s) {l1 l2 : List REvent}
    (hsplit : s.log = l1 ++ .taken A :: l2) :
    REvent.recorded B ∈ l1 ∧ is_result_done B.result = true := by
  have inv := reach_rinv hres hr
  obtain ⟨j2, hj2, hj2n, hj2d⟩ := inv.takenNeeds l1 A l2 hsplit
  have hj2A : j2 = A := nodup_name_inj hnodup hj2 hA hj2n
  obtain ⟨jr, hjr, hjrn, hjrd⟩ := hj2d B.name (by rw [hj2A]; exact hneed)
  have hjrlog : REvent.recorded jr ∈ s.log := by
    rw [hsplit]
    exact List.mem_append_left _ hjr
  have hjrt := inv.recTaken jr hjrlog
  have hjrB : jr = B :=
    nodup_name_inj hnodup (inv.takenWhen jr hjrt).1 hB hjrn
  rw [hjrB] at hjr hjrd
  exact ⟨hjr, hjrd⟩

/-- If `B ∈ A.needs` is dead (errored result or false guard), `A` is
never taken. -/
theorem dead_need_never_taken {jobs : List RJob} {A B : RJob}
    (hres : ∀ j ∈ jobs, is_result_settled j.result = true)
    (hnodup : (jobs.map RJob.name).Nodup)
    (hA : A ∈ jobs) (hB : B ∈ jobs) (hneed : B.name ∈ A.needs)
    (hBdead : (∃ e, B.result = .error e) ∨ B.whenGuard = false) :
    ∀ s, Reach jobs s → REvent.taken A ∉ s.log := by
  intro s hr ht
  obtain ⟨l1, l2, hsplit⟩ := List.append_of_mem ht
  obtain ⟨hrec, hdone⟩ :=
    taken_means_done_need hres hnodup hA hB hneed hr hsplit
  have inv := reach_rinv hres hr
  have hreclog : REvent.recorded B ∈ s.log := by
    rw [hsplit]
    exact List.mem_append_left _ hrec
  have hBt := inv.recTaken B hreclog
  rcases hBdead with ⟨e, he⟩ | hwf
  · rw [he] at hdone
    exact absurd hdone (by simp [is_result_done])
  · have h2 := (inv.takenWhen B hBt).2
    rw [hwf] at h2
    cases h2

/-- The passes keep `A`'s entry Blocked when `A`'s guard is true and its
need `B` is dead. -/
theorem passes_keep_blocked {jobs : List RJob} {s0 : RunState} {A B : RJob}
    (inv : RInv jobs s0) (hnodup : (jobs.map RJob.name).Nodup)
    (hA : A ∈ jobs) (hB : B ∈ jobs) (hneed : B.name ∈ A.needs)
    (hAw : A.whenGuard = true)
    (hBdead : (∃ e, B.result = .error e) ∨ B.whenGuard = false)
    (ih : lookupRes s0.results A.name = some (.ok .blocked)) :
    lookupRes (passes s0.jobs s0.results) A.name =
      some (.ok .blocked) := by
  unfold passes
  have hskip : lookupRes (skipPass s0.jobs s0.results) A.name =
      lookupRes s0.results A.name :=
    skipPass_preserve_of_when _ _ (fun j hj hjn => by
      rw [nodup_name_inj hnodup (inv.listSub j hj) hA hjn]
      exact hAw)
  refine unblockPass_preserve_blocked _ _ (by rw [hskip]; exact ih) ?_
  intro j hj hjn
  refine ⟨B.name, ?_, ?_⟩
  · rw [nodup_name_inj hnodup (inv.listSub j hj) hA hjn]
    exact hneed
  · by_contra hcon
    rw [Bool.not_eq_false] at hcon
    have h2 := skipPass_done_reflect _ _ hcon
    rw [bdead_not_done inv hnodup hB hBdead] at h2
    cases h2

/-- If `B ∈ A.needs` is dead and `A`'s guard is true, `A`'s entry is
Blocked in every reachable state. -/
theorem dead_need_blocked {jobs : List RJob} {A B : RJob}
    (hres : ∀ j ∈ jobs, is_result_settled j.result = true)
    (hnodup : (jobs.map RJob.name).Nodup)
    (hA : A ∈ jobs) (hB : B ∈ jobs) (hneed : B.name ∈ A.needs)
    (hBdead : (∃ e, B.result = .error e) ∨ B.whenGuard = false)
    (hAw : A.whenGuard = true) :
    ∀ s, Reach jobs s → lookupRes s.results A.name =
      some (.ok .blocked) := by
  intro s hr
  induction hr with
  | refl =>
    have h1 := seedResults_lookup_nodup ([] : RMap) hnodup hA
    have hne : A.needs.isEmpty = false := by
      cases hne : A.needs with
      | nil => rw [hne] at hneed; simp at hneed
      | cons x xs => rfl
    rw [hne] at h1
    exact h1
  | tail hr0 hstep ih =>
    rename_i s0 s1
    have inv := reach_rinv hres hr0
    cases hstep with
    | exit w rs2 hw hc =>
      obtain ⟨hrs2, -⟩ := crit_exit_shape hc
      subst hrs2
      exact passes_keep_blocked inv hnodup hA hB hneed hAw hBdead ih
    | take w j rest rs2 hw hc =>
      obtain ⟨hpf, hrs2, -⟩ := crit_take_shape hc
      subst hrs2
      obtain ⟨-, -, -, -, hpend⟩ := pickFirst_some hpf
      rw [isEqual_getReg_iff] at hpend
      have hblocked :=
        passes_keep_blocked inv hnodup hA hB hneed hAw hBdead ih
      have hkA : ¬ j.name = A.name := by
        intro hk
        rw [hk, hblocked] at hpend
        cases hpend
      simp only
      rw [lookupRes_mapInsert_cases, if_neg hkA]
      exact hblocked
    | record w j hw =>
      have hkA : ¬ j.name = A.name := by
        intro hk
        have hjt := inv.heldTaken w j hw
        have hjA : j = A :=
          nodup_name_inj hnodup (inv.takenWhen j hjt).1 hA hk
        rw [hjA] at hjt
        exact dead_need_never_taken hres hnodup hA hB hneed hBdead
          s0 hr0 hjt
      simp only
      rw [lookupRes_mapInsert_cases, if_neg hkA]
      exact ih

/-- C3 (amended).  With unique names and settled execute results, for
jobs `A`, `B` with `B.name ∈ A.needs`: whenever `A` is taken (its
`execute()` invoked), a record of `B` with a done result strictly
precedes the taking in the event log; and if `B`'s result is an error or
`B`'s guard is false, `A` is never taken, and — provided `A`'s own guard
is true — `A`'s entry stays `Blocked` in every reachable state. -/
theorem needs_ordering_amended (jobs : List RJob) (A B : RJob)
    (hres : ∀ j ∈ jobs, is_result_settled j.result = true)
    (hnodup : (jobs.map RJob.name).Nodup)
    (hA : A ∈ jobs) (hB : B ∈ jobs) (hneed : B.name ∈ A.needs) :
    (∀ s, Reach jobs s → ∀ l1 l2, s.log = l1 ++ .taken A :: l2 →
      REvent.recorded B ∈ l1 ∧ is_result_done B.result = true) ∧
    ((∃ e, B.result = .error e) ∨ B.whenGuard = false →
      (∀ s, Reach jobs s → REvent.taken A ∉ s.log) ∧
      (A.whenGuard = true → ∀ s, Reach jobs s →
        lookupRes s.results A.name = some (.ok .blocked))) := by
  refine ⟨?_, ?_⟩
  · intro s hr l1 l2 hsplit
    exact taken_means_done_need hres hnodup hA hB hneed hr hsplit
  · intro hBdead
    exact ⟨dead_need_never_taken hres hnodup hA hB hneed hBdead,
      fun hAw => dead_need_blocked hres hnodup hA hB hneed hBdead hAw⟩

/-- Witness for `needs_ordering_amended`: `a` needs `b`, `b`'s result is
an error; at the initial state `a`'s entry is Blocked. -/
theorem needs_ordering_amended_witness :
    lookupRes
      (initState [(⟨"b", [], true, .error .somethingBad⟩ : RJob),
        (⟨"a", ["b"], true, .ok .done⟩ : RJob)]).results "a" =
      some (.ok .blocked) :=
  ((needs_ordering_amended
      [(⟨"b", [], true, .error .somethingBad⟩ : RJob),
        (⟨"a", ["b"], true, .ok .done⟩ : RJob)]
      (⟨"a", ["b"], true, .ok .done⟩ : RJob)
      (⟨"b", [], true, .error .somethingBad⟩ : RJob)
      (by decide) (by decide) (by decide) (by decide) (by decide)).2
    (Or.inl ⟨.somethingBad, rfl⟩)).2 rfl _ Relation.ReflTransGen.refl

/-- Counterexample jobs for the ordering claim: `b` errors, `a` needs `b`
and has a false `when` guard. -/
def cjB : RJob := ⟨"b", [], true, .error .somethingBad⟩

def cjA : RJob := ⟨"a", ["b"], false, .ok .done⟩

def ctW1 : Fin MAX_THREADS → WorkerPhase :=
  Function.update (fun _ => .atLoop) 0 (.executing cjB)

def ctW2 : Fin MAX_THREADS → WorkerPhase :=
  Function.update ctW1 0 .atLoop

def ctW3 : Fin MAX_THREADS → WorkerPhase :=
  Function.update ctW2 0 .exited

def ctW4 : Fin MAX_THREADS → WorkerPhase :=
  Function.update ctW3 1 .exited

def ctS1 : RunState :=
  ⟨[cjA], [("b", .ok .inProgress), ("a", .ok .skipped)], ctW1,
    [.taken cjB]⟩

def ctS2 : RunState :=
  ⟨[cjA], [("b", .error .somethingBad), ("a", .ok .skipped)], ctW2,
    [.taken cjB, .recorded cjB]⟩

def ctS3 : RunState :=
  ⟨[cjA], [("b", .error .somethingBad), ("a", .ok .skipped)], ctW3,
    [.taken cjB, .recorded cjB]⟩

def ctS4 : RunState :=
  ⟨[cjA], [("b", .error .somethingBad), ("a", .ok .skipped)], ctW4,
    [.taken cjB, .recorded cjB]⟩

/-- C3 counterexample: the claim asserts that a job whose prerequisite
errors "stays Blocked".  In the concrete run of jobs `b` (errors) and
`a` (needs `b`, `when = false`), `run` terminates with `a`'s entry equal
to `Skipped`, not `Blocked`. -/
theorem needs_blocked_counterexample :
    Reach [cjB, cjA] ctS4 ∧ AllExited ctS4 ∧
    cjB.name ∈ cjA.needs ∧ cjB.result = .error .somethingBad ∧
    lookupRes ctS4.results cjA.name = some (.ok .skipped) ∧
    ¬ lookupRes ctS4.results cjA.name = some (.ok .blocked) := by
  refine ⟨?_, ?_, by decide, rfl, by decide, by decide⟩
  · have st1 : Step (initState [cjB, cjA]) ctS1 :=
      Step.take (initState [cjB, cjA]) 0 cjB [cjA]
        [("b", .ok .inProgress), ("a", .ok .skipped)] rfl (by decide)
    have st2 : Step ctS1 ctS2 := Step.record ctS1 0 cjB (by decide)
    have st3 : Step ctS2 ctS3 :=
      Step.exit ctS2 0 [("b", .error .somethingBad), ("a", .ok .skipped)]
        (by decide) (by decide)
    have st4 : Step ctS3 ctS4 :=
      Step.exit ctS3 1 [("b", .error .somethingBad), ("a", .ok .skipped)]
        (by decide) (by decide)
    exact Relation.ReflTransGen.tail
      (Relation.ReflTransGen.tail
        (Relation.ReflTransGen.tail
          (Relation.ReflTransGen.tail Relation.ReflTransGen.refl st1) st2)
        st3) st4
  · intro w
    fin_cases w <;> decide

/-! ## Process entry point (`src/main.rs`) -/

/-- `Facts` from `src/lib/facts.rs` (gathering is an external effect,
modelled by its outcome). -/
structure Facts where
  cache_dir : FPath
  config_dir : FPath
  home_dir : FPath
  is_os_linux : Bool
  is_os_macos : Bool
  is_os_windows : Bool
deriving DecidableEq, Repr

/-- `Error` from `src/main.rs` (payloads dropped). -/
inductive TopError where
  | configNotFound : TopError
  | facts : TopError
  | io : TopError
  | job : TopError
  | template : TopError
deriving DecidableEq, Repr

/-- The outcome of the single `runner::run(m.jobs)` call `main` makes:
either the run returns `()`, or a worker panics at a failing `unwrap`
in its critical section, in which case the `handle.join().expect(..)`
at the bottom of `run` propagates the panic and the process aborts. -/
inductive RunOutcome where
  | returned : RunOutcome
  | panicked : RunOutcome
deriving DecidableEq, Repr

/-- `main` from `src/main.rs`: gather facts (`?`), read the
configuration (`?`), call `runner::run(m.jobs)` — whose status map is
dropped — then return `Ok(())`.  Facts gathering, configuration reading
and the run are external effects, modelled by their outcomes; `none`
models the process aborting inside the run call, from which `main`
never returns. -/
def rustMain (gather : Except TopError Facts)
    (readConfig : Facts → Except TopError Main)
    (runOutcome : RunOutcome) : Option (Except TopError Unit) :=
  match gather with
  | .error e => some (.error e)
  | .ok f =>
    match readConfig f with
    | .error e => some (.error e)
    | .ok _ =>
      match runOutcome with
      | .returned => some (.ok ())
      | .panicked => none

/-- The process exit status is 0 exactly when `main` returns `Ok`: the
Rust runtime maps `Ok(())` to exit status 0 and `Err(_)` to nonzero,
and a process aborted by a panic exits nonzero (code 101). -/
def exitIsZero : Option (Except TopError Unit) → Bool
  | some r => r.isOk
  | none => false

/-- A job whose execution errors, for the exit-status counterexample. -/
def ejB : RJob :=
  ⟨"b", [], true, .error (.commandJob (.nonZeroExitStatus "x"))⟩

def eW1 : Fin MAX_THREADS → PPhase :=
  Function.update (fun _ => .atLoop) 0 (.executing ejB)

def eW2 : Fin MAX_THREADS → PPhase :=
  Function.update eW1 0 .atLoop

def eW3 : Fin MAX_THREADS → PPhase :=
  Function.update eW2 0 .exited

def eW4 : Fin MAX_THREADS → PPhase :=
  Function.update eW3 1 .exited

def eS1 : PState :=
  ⟨[], [("b", .ok .inProgress)], eW1, [.taken ejB]⟩

def eS2 : PState :=
  ⟨[], [("b", .error (.commandJob (.nonZeroExitStatus "x")))], eW2,
    [.taken ejB, .recorded ejB]⟩

def eS3 : PState :=
  ⟨[], [("b", .error (.commandJob (.nonZeroExitStatus "x")))], eW3,
    [.taken ejB, .recorded ejB]⟩

def eS4 : PState :=
  ⟨[], [("b", .error (.commandJob (.nonZeroExitStatus "x")))], eW4,
    [.taken ejB, .recorded ejB]⟩

/-- The configuration whose single command job fails, matching `ejB`. -/
def errMain : Main :=
  ⟨[⟨⟨some "b", none⟩,
    .command ⟨none, none, none, none, "x", none, none⟩⟩]⟩

/-- C6 counterexample: with facts gathered and the configuration loaded,
the panic-aware run of the configured job list completes — it reaches an
all-exited state, so `run` returns and the run outcome is `returned` —
with the job's entry holding an error, yet `main` returns `Ok(())` and
the process exits 0. -/
theorem exit_code_counterexample :
    exitIsZero (rustMain (.ok ⟨[], [], [], true, false, false⟩)
      (fun _ => .ok errMain) .returned) = true ∧
    ReachP [ejB] eS4 ∧ AllExitedP eS4 ∧
    lookupRes eS4.results "b" =
      some (.error (.commandJob (.nonZeroExitStatus "x"))) := by
  refine ⟨rfl, ?_, ?_, rfl⟩
  · have st1 : StepP (initP [ejB]) eS1 :=
      StepP.take (initP [ejB]) 0 ejB [] [("b", .ok .inProgress)]
        rfl (by decide)
    have st2 : StepP eS1 eS2 := StepP.record eS1 0 ejB (by decide)
    have st3 : StepP eS2 eS3 :=
      StepP.exit eS2 0 [("b", .error (.commandJob (.nonZeroExitStatus "x")))]
        (by decide) (by decide)
    have st4 : StepP eS3 eS4 :=
      StepP.exit eS3 1 [("b", .error (.commandJob (.nonZeroExitStatus "x")))]
        (by decide) (by decide)
    exact Relation.ReflTransGen.tail
      (Relation.ReflTransGen.tail
        (Relation.ReflTransGen.tail
          (Relation.ReflTransGen.tail Relation.ReflTransGen.refl st1) st2)
        st3) st4
  · intro w
    fin_cases w <;> decide

/-- C6 (amended).  The process exits 0 exactly when facts gathering and
configuration loading both succeed and the run returns: the outcomes of
the jobs the run records in its status map play no part in the exit
status, because `run` returns `()` and `main` then returns `Ok(())` —
but a run that panics, as a dangling need makes it do, aborts the
process with a nonzero status. -/
theorem exit_code_amended (gather : Except TopError Facts)
    (readConfig : Facts → Except TopError Main)
    (runOutcome : RunOutcome) :
    exitIsZero (rustMain gather readConfig runOutcome) = true ↔
      ((∃ f m, gather = .ok f ∧ readConfig f = .ok m) ∧
        runOutcome = .returned) := by
  cases gather with
  | error e =>
    simp only [rustMain, exitIsZero, Except.isOk, Except.toBool]
    constructor
    · intro h
      cases h
    · rintro ⟨⟨f2, m2, hf2, -⟩, -⟩
      cases hf2
  | ok f =>
    cases hr : readConfig f with
    | error e =>
      simp only [rustMain, hr, exitIsZero, Except.isOk, Except.toBool]
      constructor
      · intro h
        cases h
      · rintro ⟨⟨f2, m2, hf2, hm2⟩, -⟩
        injection hf2 with hf2
        rw [← hf2, hr] at hm2
        cases hm2
    | ok m =>
      cases runOutcome with
      | returned =>
        simp only [rustMain, hr, exitIsZero, Except.isOk, Except.toBool]
        constructor
        · intro _
          exact ⟨⟨f, m, rfl, hr⟩, trivial⟩
        · intro _
          trivial
      | panicked =>
        simp only [rustMain, hr, exitIsZero]
        constructor
        · intro h
          cases h
        · rintro ⟨-, h2⟩
          cases h2

/-! ## Every job of this program produces a settled execute result

These lemmas discharge, for the program's own job types, the
settled-results hypothesis the scheduler theorems take: `File::execute`
and `Command::execute` only ever return `Done`, `Changed`, `NoChange` or
an error, all of which `is_result_settled` accepts. -/

/-- A file/command result is done or an error (never a lifecycle-only
status such as Pending). -/
def resultDoneOrErr {e : Type} (r : Except e Status) : Bool :=
  match r with
  | .ok s => s.is_done
  | .error _ => true

theorem execute_absent_doneOrErr (p : FPath) (fs : Fs) :
    resultDoneOrErr (execute_absent p fs).1 = true := by
  unfold execute_absent
  split
  · rfl
  · split <;> rfl

theorem finishDir_doneOrErr (p : FPath) (prev : String) (fs : Fs) :
    resultDoneOrErr (finishDir p prev fs).1 = true := by
  unfold finishDir
  split <;> rfl

theorem execute_directory_doneOrErr (p : FPath) (force : Bool) (fs : Fs) :
    resultDoneOrErr (execute_directory p force fs).1 = true := by
  unfold execute_directory
  split
  · rfl
  · split
    · split
      · rfl
      · split
        · rfl
        · exact finishDir_doneOrErr _ _ _
    · exact finishDir_doneOrErr _ _ _

theorem linkStep5_doneOrErr (src dest : FPath) (prev : String) (fs : Fs) :
    resultDoneOrErr (linkStep5 src dest prev fs).1 = true := by
  unfold linkStep5
  split <;> rfl

theorem linkForce_doneOrErr (src dest : FPath) (prev2 : String)
    (fs : Fs) :
    resultDoneOrErr ((match execute_absent dest fs with
      | (Except.error e, fs1) => ((Except.error e : FResult), fs1)
      | (Except.ok _, fs1) => linkStep5 src dest prev2 fs1)).1 = true := by
  split
  · rfl
  · exact linkStep5_doneOrErr _ _ _ _

theorem linkStep4_doneOrErr (src dest : FPath) (force : Bool)
    (prev : String) (fs : Fs) :
    resultDoneOrErr (linkStep4 src dest force prev fs).1 = true := by
  unfold linkStep4
  split
  · cases force with
    | false =>
      rw [if_neg (by simp)]
      rfl
    | true =>
      rw [if_pos rfl]
      exact linkForce_doneOrErr _ _ _ _
  · split
    · split
      · rfl
      · exact linkStep5_doneOrErr _ _ _ _
    · exact linkStep5_doneOrErr _ _ _ _

theorem execute_link_doneOrErr (src dest : FPath) (force : Bool)
    (fs : Fs) : resultDoneOrErr (execute_link src dest force fs).1 = true := by
  unfold execute_link
  split
  · rfl
  · split
    · split
      · rfl
      · split
        · rfl
        · exact linkStep4_doneOrErr _ _ _ _ _
    · exact linkStep4_doneOrErr _ _ _ _ _

theorem finishTouch_doneOrErr (p : FPath) (fs : Fs) :
    resultDoneOrErr (finishTouch p fs).1 = true := by
  unfold finishTouch
  split <;> rfl

theorem execute_touch_doneOrErr (p : FPath) (fs : Fs) :
    resultDoneOrErr (execute_touch p fs).1 = true := by
  unfold execute_touch
  split
  · rfl
  · split
    · split
      · rfl
      · exact finishTouch_doneOrErr _ _
    · exact finishTouch_doneOrErr _ _

theorem fileExecute_doneOrErr (f : File) (fs : Fs) :
    resultDoneOrErr (f.execute fs).1 = true := by
  unfold File.execute
  split
  · exact execute_absent_doneOrErr _ _
  · exact execute_directory_doneOrErr _ _ _
  · split
    · exact execute_link_doneOrErr _ _ _ _
    · rfl
  · exact execute_touch_doneOrErr _ _
  · rfl

theorem commandExecute_doneOrErr (c : Command) (fs : Fs)
    (child : ChildOutcome) :
    resultDoneOrErr (c.execute fs child).1 = true := by
  have hspawn : ∀ c2, resultDoneOrErr (commandSpawn c2 child) = true := by
    intro c2
    unfold commandSpawn
    match child with
    | .beginFail => rfl
    | .waitFail => rfl
    | .exits true => rfl
    | .exits false => rfl
  unfold Command.execute commandAfterCreates
  split
  · split
    · rfl
    · split
      · split
        · rfl
        · exact hspawn c
      · exact hspawn c
  · split
    · split
      · rfl
      · exact hspawn c
    · exact hspawn c

/-- `Job::execute` (the `Execute` impl in `src/lib/jobs/mod.rs`): the
spec's result with the error lifted into `jobs::Error`, over the
filesystem and child-process models. -/
def Job.executeModel (j : Job) (fs : Fs) (child : ChildOutcome) : JResult :=
  match j.spec with
  | .command c => ((c.execute fs child).1).mapError (fun e => .commandJob e)
  | .file f => ((f.execute fs).1).mapError (fun e => .fileJob e)

/-- Every result the program's job envelope can produce is settled; this
discharges the settled-results hypothesis of the scheduler theorems for
the job lists this program builds. -/
theorem jobExecute_settled (j : Job) (fs : Fs) (child : ChildOutcome) :
    is_result_settled (j.executeModel fs child) = true := by
  unfold Job.executeModel
  have key : ∀ {e : Type} (r : Except e Status) (g : e → JError),
      resultDoneOrErr r = true →
      is_result_settled (r.mapError g) = true := by
    intro e r g hr
    match r with
    | .error x => rfl
    | .ok s =>
      cases s <;> first
        | rfl
        | exact absurd hr (by simp [resultDoneOrErr, Status.is_done])
  split
  · exact key _ _ (commandExecute_doneOrErr _ _ _)
  · exact key _ _ (fileExecute_doneOrErr _ _)

end Tuning
